import Mathlib

/-!
simple-so-generator: the `.hash` section builder of `generate_complex_so.c`.

A shallow embedding of the C program.  Machine integers are natural numbers;
where 32-bit or 64-bit wrap-around can occur the reduction `% 2 ^ 32` or
`% 2 ^ 64` is written out.  A parameter of type `u8`, `u32` or `u64` ranges
over the values below `2 ^ 8`, `2 ^ 32`, `2 ^ 64`.  The global arrays `bytes`
and `chains` are the lists of their live prefixes `bytes[0 .. bytes_size)` and
`chains[0 .. chains_size)`; `exit(EXIT_FAILURE)` is an `Except.error`.
A C string is the list of its bytes; a NUL byte (or the end of the list) ends it.
-/

namespace SimpleSo

/-! ## Definitions -/

/-- The constant `MAX_BYTES` (`#define MAX_BYTES 420420`). -/
def MAX_BYTES : Nat := 420420

/-- The constant `MAX_BUCKETS` (`#define MAX_BUCKETS 32771`). -/
def MAX_BUCKETS : Nat := 32771

/-- The constant `MAX_SYMBOLS` (`#define MAX_SYMBOLS 420420`). -/
def MAX_SYMBOLS : Nat := 420420

/-- The ways a run of the program stops early. `max_bytes` and `max_symbols` are the two
`exit(EXIT_FAILURE)` paths of `push_byte` and `push_chain`; `out_of_bounds` stands for a read
past the end of the `symbols` array handed to `push_hash` (undefined behaviour in C). -/
inductive Error where
  | max_bytes
  | max_symbols
  | out_of_bounds
  deriving DecidableEq, Repr

/-- The mutable storage of the program: `bytes[0 .. bytes_size)`, `chains[0 .. chains_size)`
and the function-static array `buckets` of `push_hash` (indexed below `MAX_BUCKETS`). -/
structure State where
  bytes : List Nat
  chains : List Nat
  buckets : Nat → Nat

/-- State at program start: both sizes are zero and static storage is zero-initialised. -/
def initial_state : State := { bytes := [], chains := [], buckets := fun _ => 0 }

/-- Function `reset`: `bytes_size = 0; chains_size = 0;` (the static `buckets` array of
`push_hash` is not touched). -/
def reset (st : State) : State := { st with bytes := [], chains := [] }

/-- Function `push_byte`: fails when `bytes_size + 1 > MAX_BYTES`, else
`bytes[bytes_size++] = byte`. -/
def push_byte (byte : Nat) (st : State) : Except Error State :=
  if st.bytes.length + 1 > MAX_BYTES then .error .max_bytes
  else .ok { st with bytes := st.bytes ++ [byte] }

/-- Function `push_zeros`: `for (i = 0; i < count; i++) push_byte(0);`. -/
def push_zeros : Nat → State → Except Error State
  | 0, st => .ok st
  | count + 1, st => push_byte 0 st >>= push_zeros count

/-- The `while (n > 0)` loop of `push_number`; it returns the decremented `byte_count`
together with the state.  `n` is a `u64`, so the body runs at most eight times and the
recursion is on that bound (`push_number` starts it at 8).  `byte_count--` is a `size_t`
decrement and wraps modulo `2 ^ 64`. -/
def push_number_loop : Nat → Nat → Nat → State → Except Error (Nat × State)
  | 0, _, byte_count, st => .ok (byte_count, st)
  | fuel + 1, n, byte_count, st =>
    if n > 0 then
      push_byte (n &&& 0xff) st >>= fun st1 =>
        push_number_loop fuel (n >>> 8) ((byte_count + (2 ^ 64 - 1)) % 2 ^ 64) st1
    else .ok (byte_count, st)

/-- Function `push_number(u64 n, size_t byte_count)`: the bytes of `n`, least significant first,
then `push_zeros(byte_count)` with what is left of `byte_count`. -/
def push_number (n byte_count : Nat) (st : State) : Except Error State :=
  push_number_loop 8 n byte_count st >>= fun r => push_zeros r.1 r.2

/-- The table `nbucket_options` of `get_nbucket`, with its terminating 0. -/
def nbucket_options : List Nat :=
  [1, 3, 17, 37, 67, 97, 131, 197, 263, 521, 1031, 2053, 4099, 8209, 16411, MAX_BUCKETS, 0]

/-- The `for` loop of `get_nbucket` over the part of the table from index `i` on:
the head is `nbucket_options[i]` and the head of the tail is `nbucket_options[i + 1]`. -/
def get_nbucket_loop (symbol_count : Nat) : List Nat → Nat → Nat
  | [], nbucket => nbucket
  | option :: rest, nbucket =>
    if option ≠ 0 then
      if symbol_count < rest.headD 0 then option
      else get_nbucket_loop symbol_count rest option
    else nbucket

/-- Function `get_nbucket`: `nbucket = 0`, then the loop from index 0. -/
def get_nbucket (symbol_count : Nat) : Nat :=
  get_nbucket_loop symbol_count nbucket_options 0

/-- The `for` loop of `elf_hash`: it stops at the NUL byte; per byte
`h = (h << 4) + *name; h ^= (h >> 24) & 0xf0;` in `u32` arithmetic. -/
def elf_hash_loop : List Nat → Nat → Nat
  | [], h => h
  | c :: rest, h =>
    if c % 256 = 0 then h
    else
      let h1 := ((h <<< 4) % 2 ^ 32 + c % 256) % 2 ^ 32
      let h2 := h1 ^^^ ((h1 >>> 24) &&& 0xf0)
      elf_hash_loop rest h2

/-- Function `elf_hash`: `h = 0`, the loop, `return h & 0x0fffffff`. -/
def elf_hash (namearg : List Nat) : Nat :=
  elf_hash_loop namearg 0 &&& 0x0fffffff

/-- Function `push_chain`: fails when `chains_size + 1 > MAX_SYMBOLS`, else
`chains[chains_size++] = chain`. -/
def push_chain (chain : Nat) (st : State) : Except Error State :=
  if st.chains.length + 1 > MAX_SYMBOLS then .error .max_symbols
  else .ok { st with chains := st.chains ++ [chain] }

/-- The call `memset(buckets, 0, nbucket * sizeof(u32))` in `push_hash`: the first `nbucket`
entries of the static array become 0, the others keep their values. -/
def clear_buckets (nbucket : Nat) (st : State) : State :=
  { st with buckets := fun j => if j < nbucket then 0 else st.buckets j }

/-- The construction loop of `push_hash` (`for (i = 0; i < symbol_count; i++)`), started
with `remaining = symbol_count - i` iterations to go:
`hash = elf_hash(symbols[i]); bucket_index = hash % nbucket;
push_chain(buckets[bucket_index]); buckets[bucket_index] = i + 1;`
(the last assignment converts the `size_t` value `i + 1` to `u32`). -/
def push_hash_chain_loop (symbols : List (List Nat)) (nbucket : Nat) :
    Nat → Nat → State → Except Error State
  | 0, _, st => .ok st
  | remaining + 1, i, st =>
    match symbols[i]? with
    | none => .error .out_of_bounds
    | some name =>
      let hash := elf_hash name
      let bucket_index := hash % nbucket
      push_chain (st.buckets bucket_index) st >>= fun st1 =>
        push_hash_chain_loop symbols nbucket remaining (i + 1)
          { st1 with buckets := Function.update st1.buckets bucket_index ((i + 1) % 2 ^ 32) }

/-- The loop `for (i = 0; i < nbucket; i++) push_number(buckets[i], 4);` of `push_hash`, with
`remaining = nbucket - i` iterations to go. -/
def push_hash_buckets_loop : Nat → Nat → State → Except Error State
  | 0, _, st => .ok st
  | remaining + 1, i, st =>
    push_number (st.buckets i) 4 st >>= push_hash_buckets_loop remaining (i + 1)

/-- The loop `for (i = 0; i < chains_size; i++) push_number(chains[i], 4);` of `push_hash`,
with `remaining = chains_size - i` iterations to go. -/
def push_hash_chains_loop : Nat → Nat → State → Except Error State
  | 0, _, st => .ok st
  | remaining + 1, i, st =>
    push_number (st.chains.getD i 0) 4 st >>= push_hash_chains_loop remaining (i + 1)

/-- The body of `push_hash` as a function of its local `symbol_count`
(`u32 nchain = 1 + symbol_count` is a conversion to `u32`). -/
def push_hash_body (symbol_count : Nat) (symbols : List (List Nat)) (st : State) :
    Except Error State :=
  let nbucket := get_nbucket symbol_count
  push_number nbucket 4 st >>= fun st1 =>
  let nchain := (1 + symbol_count) % 2 ^ 32
  push_number nchain 4 st1 >>= fun st2 =>
  push_hash_chain_loop symbols nbucket symbol_count 0 (clear_buckets nbucket st2) >>= fun st3 =>
  push_hash_buckets_loop nbucket 0 st3 >>= fun st4 =>
  push_number 0 4 st4 >>= fun st5 =>
  push_hash_chains_loop st5.chains.length 0 st5

/-- Function `push_hash`: its first statement fixes `size_t symbol_count = 16;` (marked
`TODO: Turn this into symbols_size` in the source), then the body runs. -/
def push_hash (symbols : List (List Nat)) (st : State) : Except Error State :=
  push_hash_body 16 symbols st

/-- The array `symbols` of `generate_simple_so`:
`"b","p","j","n","f","g","o","l","k","i","c","d","h","a","e","m"`. -/
def simple_symbols : List (List Nat) :=
  [[98], [112], [106], [110], [102], [103], [111], [108], [107], [105], [99], [100], [104],
   [97], [101], [109]]

/-- The loop of `push_string`: `for (i = 0; i < strlen(str); i++) push_byte(str[i]);`, the
bytes of `str` up to its NUL. -/
def push_string_loop : List Nat → State → Except Error State
  | [], st => .ok st
  | c :: rest, st =>
    if c % 256 = 0 then .ok st
    else push_byte (c % 256) st >>= push_string_loop rest

/-- Function `push_string`: the bytes of the string, then `push_byte(0)` for its NUL. -/
def push_string (str : List Nat) (st : State) : Except Error State :=
  push_string_loop str st >>= push_byte 0

/-- Enumerator `DT_NULL = 0` of `d_type`. -/
def DT_NULL : Nat := 0

/-- Enumerator `DT_HASH = 4` of `d_type`. -/
def DT_HASH : Nat := 4

/-- Enumerator `DT_STRTAB = 5` of `d_type`. -/
def DT_STRTAB : Nat := 5

/-- Enumerator `DT_SYMTAB = 6` of `d_type`. -/
def DT_SYMTAB : Nat := 6

/-- Enumerator `DT_STRSZ = 10` of `d_type`. -/
def DT_STRSZ : Nat := 10

/-- Enumerator `DT_SYMENT = 11` of `d_type`. -/
def DT_SYMENT : Nat := 11

/-- Enumerator `PT_LOAD = 1` of `p_type`. -/
def PT_LOAD : Nat := 1

/-- Enumerator `PT_DYNAMIC = 2` of `p_type`. -/
def PT_DYNAMIC : Nat := 2

/-- Enumerator `PF_W = 2` of `p_flags`. -/
def PF_W : Nat := 2

/-- Enumerator `PF_R = 4` of `p_flags`. -/
def PF_R : Nat := 4

/-- Enumerator `SHT_PROGBITS = 0x1` of `sh_type`. -/
def SHT_PROGBITS : Nat := 0x1

/-- Enumerator `SHT_SYMTAB = 0x2` of `sh_type`. -/
def SHT_SYMTAB : Nat := 0x2

/-- Enumerator `SHT_STRTAB = 0x3` of `sh_type`. -/
def SHT_STRTAB : Nat := 0x3

/-- Enumerator `SHT_HASH = 0x5` of `sh_type`. -/
def SHT_HASH : Nat := 0x5

/-- Enumerator `SHT_DYNAMIC = 0x6` of `sh_type`. -/
def SHT_DYNAMIC : Nat := 0x6

/-- Enumerator `SHT_DYNSYM = 0xb` of `sh_type`. -/
def SHT_DYNSYM : Nat := 0xb

/-- Enumerator `SHF_WRITE = 1` of `sh_flags`. -/
def SHF_WRITE : Nat := 1

/-- Enumerator `SHF_ALLOC = 2` of `sh_flags`. -/
def SHF_ALLOC : Nat := 2

/-- Enumerator `ET_DYN = 3` of `e_type`. -/
def ET_DYN : Nat := 3

/-- Function `push_shstrtab`: a zero byte, the nine section names `".symtab"`, `".strtab"`,
`".shstrtab"`, `".hash"`, `".dynsym"`, `".dynstr"`, `".eh_frame"`, `".dynamic"`, `".data"`,
then `push_zeros(2)`. -/
def push_shstrtab : State → Except Error State :=
  push_byte 0 >=>
  push_string [46, 115, 121, 109, 116, 97, 98] >=>
  push_string [46, 115, 116, 114, 116, 97, 98] >=>
  push_string [46, 115, 104, 115, 116, 114, 116, 97, 98] >=>
  push_string [46, 104, 97, 115, 104] >=>
  push_string [46, 100, 121, 110, 115, 121, 109] >=>
  push_string [46, 100, 121, 110, 115, 116, 114] >=>
  push_string [46, 101, 104, 95, 102, 114, 97, 109, 101] >=>
  push_string [46, 100, 121, 110, 97, 109, 105, 99] >=>
  push_string [46, 100, 97, 116, 97] >=>
  push_zeros 2

/-- Function `push_strtab`: a zero byte and the strings `"foo.s"`, `"_DYNAMIC"`, `"foo"`. -/
def push_strtab : State → Except Error State :=
  push_byte 0 >=>
  push_string [102, 111, 111, 46, 115] >=>
  push_string [95, 68, 89, 78, 65, 77, 73, 67] >=>
  push_string [102, 111, 111]

/-- Function `push_symbol`: six fields, each `push_number(.., 4)`. -/
def push_symbol (name value size info other shndx : Nat) : State → Except Error State :=
  push_number name 4 >=>
  push_number value 4 >=>
  push_number size 4 >=>
  push_number info 4 >=>
  push_number other 4 >=>
  push_number shndx 4

/-- Function `push_symtab`: the five entries of `.symtab`. -/
def push_symtab : State → Except Error State :=
  push_symbol 0 0 0 0 0 0 >=>
  push_symbol 1 0xfff10004 0 0 0 0 >=>
  push_symbol 0 0xfff10004 0 0 0 0 >=>
  push_symbol 7 0x50001 0x1f50 0 0 0 >=>
  push_symbol 16 0x60010 0x2000 0 0 0

/-- Function `push_data`: the string `"bar"` and `push_zeros(4)`. -/
def push_data : State → Except Error State :=
  push_string [98, 97, 114] >=>
  push_zeros 4

/-- Function `push_dynamic_entry`: `push_number(tag, 8); push_number(value, 8);`. -/
def push_dynamic_entry (tag value : Nat) : State → Except Error State :=
  push_number tag 8 >=>
  push_number value 8

/-- Function `push_dynamic`: the eleven entries of `.dynamic`. -/
def push_dynamic : State → Except Error State :=
  push_dynamic_entry DT_HASH 0x120 >=>
  push_dynamic_entry DT_STRTAB 0x168 >=>
  push_dynamic_entry DT_SYMTAB 0x138 >=>
  push_dynamic_entry DT_STRSZ 5 >=>
  push_dynamic_entry DT_SYMENT 24 >=>
  push_dynamic_entry DT_NULL 0 >=>
  push_dynamic_entry DT_NULL 0 >=>
  push_dynamic_entry DT_NULL 0 >=>
  push_dynamic_entry DT_NULL 0 >=>
  push_dynamic_entry DT_NULL 0 >=>
  push_dynamic_entry DT_NULL 0

/-- Function `push_dynstr`: a zero byte and the string `"foo"`. -/
def push_dynstr : State → Except Error State :=
  push_byte 0 >=>
  push_string [102, 111, 111]

/-- Function `push_dynsym`: the two entries of `.dynsym`. -/
def push_dynsym : State → Except Error State :=
  push_symbol 0 0 0 0 0 0 >=>
  push_symbol 1 0x60010 0x2000 0 0 0

/-- Function `push_section`: one section header, ten fields of 4 or 8 bytes. -/
def push_section (name_offset type flags address offset size link info alignment
    entry_size : Nat) : State → Except Error State :=
  push_number name_offset 4 >=>
  push_number type 4 >=>
  push_number flags 8 >=>
  push_number address 8 >=>
  push_number offset 8 >=>
  push_number size 8 >=>
  push_number link 4 >=>
  push_number info 4 >=>
  push_number alignment 8 >=>
  push_number entry_size 8

/-- Function `push_section_headers`: the null section (`push_zeros(0x40)`) and the headers of
`.hash`, `.dynsym`, `.dynstr`, `.eh_frame`, `.dynamic`, `.data`, `.symtab`, `.strtab`,
`.shstrtab`. -/
def push_section_headers : State → Except Error State :=
  push_zeros 0x40 >=>
  push_section 0x1b SHT_HASH SHF_ALLOC 0x120 0x120 0x14 2 0 8 4 >=>
  push_section 0x21 SHT_DYNSYM SHF_ALLOC 0x138 0x138 0x30 3 1 8 0x18 >=>
  push_section 0x29 SHT_STRTAB SHF_ALLOC 0x168 0x168 5 0 0 1 0 >=>
  push_section 0x31 SHT_PROGBITS SHF_ALLOC 0x1000 0x1000 0 0 0 8 0 >=>
  push_section 0x3b SHT_DYNAMIC (SHF_WRITE ||| SHF_ALLOC) 0x1f50 0x1f50 0xb0 3 0 8 0x10 >=>
  push_section 0x44 SHT_PROGBITS (SHF_WRITE ||| SHF_ALLOC) 0x2000 0x2000 4 0 0 4 0 >=>
  push_section 1 SHT_SYMTAB 0 0 0x2008 0x78 8 4 8 0x18 >=>
  push_section 0x09 (SHT_PROGBITS ||| SHT_SYMTAB) 0 0 0x2080 0x14 0 0 1 0 >=>
  push_section 0x11 (SHT_PROGBITS ||| SHT_SYMTAB) 0 0 0x2094 0x4a 0 0 1 0

/-- Function `push_program_header`: eight fields of 4 or 8 bytes. -/
def push_program_header (type flags offset virtual_address physical_address file_size
    mem_size alignment : Nat) : State → Except Error State :=
  push_number type 4 >=>
  push_number flags 4 >=>
  push_number offset 8 >=>
  push_number virtual_address 8 >=>
  push_number physical_address 8 >=>
  push_number file_size 8 >=>
  push_number mem_size 8 >=>
  push_number alignment 8

/-- Function `push_elf_header`: the 64 bytes of the ELF header, in the order of the source
(magic, class, data, version, ABI, padding, `e_type`, `e_machine`, `e_version`, `e_entry`,
`e_phoff`, `e_shoff` as the bytes `0xe0 0x20` and six zeros, `e_flags`, `e_ehsize`,
`e_phentsize`, `e_phnum`, `e_shentsize`, `e_shnum`, `e_shstrndx`). -/
def push_elf_header : State → Except Error State :=
  push_byte 0x7f >=> push_byte 69 >=> push_byte 76 >=> push_byte 70 >=>
  push_byte 2 >=>
  push_byte 1 >=>
  push_byte 1 >=>
  push_byte 0 >=>
  push_zeros 8 >=>
  push_byte ET_DYN >=> push_byte 0 >=>
  push_byte 0x3E >=> push_byte 0 >=>
  push_byte 1 >=> push_zeros 3 >=>
  push_zeros 8 >=>
  push_byte 0x40 >=> push_zeros 7 >=>
  push_byte 0xe0 >=> push_byte 0x20 >=> push_zeros 6 >=>
  push_zeros 4 >=>
  push_byte 0x40 >=> push_byte 0 >=>
  push_byte 0x38 >=> push_byte 0 >=>
  push_byte 4 >=> push_byte 0 >=>
  push_byte 0x40 >=> push_byte 0 >=>
  push_byte 10 >=> push_byte 0 >=>
  push_byte 9 >=> push_byte 0

/-- The part of `generate_simple_so` before `push_hash`: the ELF header and the four program
headers (commented `0x0 to 0x40` and `0x40 to 0x120` in the source). -/
def generate_simple_so_headers : State → Except Error State :=
  push_elf_header >=>
  push_program_header PT_LOAD PF_R 0 0 0 0x1000 0x1000 0x1000 >=>
  push_program_header PT_LOAD (PF_R ||| PF_W) 0x1f50 0x1f50 0x1f50 0xb4 0xb4 0x1000 >=>
  push_program_header PT_DYNAMIC (PF_R ||| PF_W) 0x1f50 0x1f50 0x1f50 0xb0 0xb0 8 >=>
  push_program_header 0x6474e552 PF_R 0x1f50 0x1f50 0x1f50 0xb0 0xb0 1

/-- The part of `generate_simple_so` between `push_hash` and `push_section_headers`:
`push_dynsym`, `push_dynstr`, `push_zeros(3)`, `push_zeros(0x1de0)`, `push_dynamic`,
`push_data`, `push_symtab`, `push_strtab`, `push_shstrtab`. -/
def generate_simple_so_sections : State → Except Error State :=
  push_dynsym >=>
  push_dynstr >=>
  push_zeros 3 >=>
  push_zeros 0x1de0 >=>
  push_dynamic >=>
  push_data >=>
  push_symtab >=>
  push_strtab >=>
  push_shstrtab

/-- Function `generate_simple_so`, without the file operations: `reset()`, then every push
in the order of the source.  The image written to `foo.so` is the `bytes` of the result. -/
def generate_simple_so (st : State) : Except Error State :=
  (generate_simple_so_headers >=>
    push_hash simple_symbols >=>
    generate_simple_so_sections >=>
    push_section_headers) (reset st)

/-! ### Vocabulary of the properties (not part of the program) -/

/-- The System V gABI reference hash in 32-bit arithmetic, one byte:
`h = (h << 4) + b; g = h & 0xf0000000; if (g) h ^= g >> 24; h &= ~g;`. -/
def sysv_hash_step (h b : Nat) : Nat :=
  let h1 := ((h <<< 4) % 2 ^ 32 + b) % 2 ^ 32
  let g := h1 &&& 0xf0000000
  let h2 := if g ≠ 0 then h1 ^^^ (g >>> 24) else h1
  h2 &&& (0xffffffff ^^^ g)

/-- The System V gABI reference hash of a byte sequence. -/
def sysv_elf_hash (name : List Nat) : Nat :=
  name.foldl sysv_hash_step 0

/-- The candidate bucket counts: the table of `get_nbucket` without its terminator. -/
def nbucket_candidates : List Nat :=
  [1, 3, 17, 37, 67, 97, 131, 197, 263, 521, 1031, 2053, 4099, 8209, 16411, 32771]

/-- The little-endian digits of `n` in `byte_count` bytes: byte `i` is `n / 256 ^ i % 256`. -/
def le_bytes (n : Nat) : Nat → List Nat
  | 0 => []
  | byte_count + 1 => n % 256 :: le_bytes (n / 256) byte_count

/-- The bytes of a sequence of 4-byte little-endian words. -/
def le_words (ws : List Nat) : List Nat :=
  ws.flatMap fun w => le_bytes w 4

/-- The chain table as `push_hash` emits it: the word 0 (`STN_UNDEF`) and then
`chains[0 .. chains_size)`. -/
def chain_array (st : State) : List Nat := 0 :: st.chains

/-- A lookup walk over a chain table: from `index`, while it is not 0, record it and go to
`chain[index]`.  `none` when `fuel` steps do not reach 0 or an index is outside the table. -/
def chain_walk (chain : List Nat) : Nat → Nat → Option (List Nat)
  | 0, _ => none
  | fuel + 1, index =>
    if index = 0 then some []
    else
      match chain[index]? with
      | none => none
      | some next => (chain_walk chain fuel next).map (index :: ·)

/-- The 1-based indices `i ≤ k` of the names that hash to bucket `b`, largest first. -/
def bucket_members (names : List (List Nat)) (nbucket b : Nat) : Nat → List Nat
  | 0 => []
  | k + 1 =>
    if elf_hash (names[k]?.getD []) % nbucket = b then (k + 1) :: bucket_members names nbucket b k
    else bucket_members names nbucket b k

/-- The occupant of bucket `b` once the first `k` names are inserted: the largest 1-based
index at most `k` whose name hashes to `b`, or 0 when there is none. -/
def bucket_head (names : List (List Nat)) (nbucket b k : Nat) : Nat :=
  (bucket_members names nbucket b k).headD 0

/-- The chain word of symbol `i + 1`: the occupant of its bucket just before it is inserted. -/
def chain_value (names : List (List Nat)) (nbucket i : Nat) : Nat :=
  bucket_head names nbucket (elf_hash (names[i]?.getD []) % nbucket) i

/-- The number whose little-endian digits are the given bytes: `b_0 + 256 * b_1 + ..`. -/
def le_value : List Nat → Nat
  | [] => 0
  | b :: rest => b + 256 * le_value rest

/-- The base-16 polynomial of a name: the sum of `b_i * 16 ^ (n - 1 - i)` over its `n`
bytes. -/
def hash_polynomial : List Nat → Nat
  | [] => 0
  | b :: rest => b * 16 ^ rest.length + hash_polynomial rest

/-- An operation that, whenever the byte buffer has room for `out`, returns and changes
nothing but `bytes`, to which it appends `out`. -/
def Emits (f : State → Except Error State) (out : List Nat) : Prop :=
  ∀ st : State, st.bytes.length + out.length ≤ MAX_BYTES →
    f st = .ok { st with bytes := st.bytes ++ out }

/-- An operation on the byte buffer that is append-only and bounds-checked: when it returns,
the old `bytes` are an unchanged initial part of the new ones, a size within `MAX_BYTES`
stays within `MAX_BYTES`, and `chains` and `buckets` are untouched; when it fails, it fails
with the `MAX_BYTES` error. -/
def AppendOnly (f : State → Except Error State) : Prop :=
  (∀ st st', f st = .ok st' →
    (∃ out, st'.bytes = st.bytes ++ out) ∧
    (st.bytes.length ≤ MAX_BYTES → st'.bytes.length ≤ MAX_BYTES) ∧
    st'.chains = st.chains ∧ st'.buckets = st.buckets) ∧
  ∀ st e, f st = .error e → e = .max_bytes

/-- The bytes of a successful run, for comparing outputs. -/
def bytes_of : Except Error State → Option (List Nat)
  | .ok st => some st.bytes
  | .error _ => none

/-! ## The bucket count -/

/-- Closed form of `get_nbucket`: the table walked step by step. -/
theorem get_nbucket_eq (n : Nat) : get_nbucket n =
    if n < 3 then 1 else if n < 17 then 3 else if n < 37 then 17 else if n < 67 then 37
    else if n < 97 then 67 else if n < 131 then 97 else if n < 197 then 131
    else if n < 263 then 197 else if n < 521 then 263 else if n < 1031 then 521
    else if n < 2053 then 1031 else if n < 4099 then 2053 else if n < 8209 then 4099
    else if n < 16411 then 8209 else if n < 32771 then 16411 else 32771 := by
  simp only [get_nbucket, nbucket_options, MAX_BUCKETS, get_nbucket_loop, List.headD_cons,
    ne_eq, OfNat.ofNat_ne_zero, one_ne_zero, not_false_eq_true, not_true_eq_false, if_true,
    if_false, Nat.not_lt_zero]

/-- The sixteen ranges of the symbol count and the bucket count of each. -/
theorem get_nbucket_cases (n : Nat) :
    (n < 3 ∧ get_nbucket n = 1) ∨
    (3 ≤ n ∧ n < 17 ∧ get_nbucket n = 3) ∨
    (17 ≤ n ∧ n < 37 ∧ get_nbucket n = 17) ∨
    (37 ≤ n ∧ n < 67 ∧ get_nbucket n = 37) ∨
    (67 ≤ n ∧ n < 97 ∧ get_nbucket n = 67) ∨
    (97 ≤ n ∧ n < 131 ∧ get_nbucket n = 97) ∨
    (131 ≤ n ∧ n < 197 ∧ get_nbucket n = 131) ∨
    (197 ≤ n ∧ n < 263 ∧ get_nbucket n = 197) ∨
    (263 ≤ n ∧ n < 521 ∧ get_nbucket n = 263) ∨
    (521 ≤ n ∧ n < 1031 ∧ get_nbucket n = 521) ∨
    (1031 ≤ n ∧ n < 2053 ∧ get_nbucket n = 1031) ∨
    (2053 ≤ n ∧ n < 4099 ∧ get_nbucket n = 2053) ∨
    (4099 ≤ n ∧ n < 8209 ∧ get_nbucket n = 4099) ∨
    (8209 ≤ n ∧ n < 16411 ∧ get_nbucket n = 8209) ∨
    (16411 ≤ n ∧ n < 32771 ∧ get_nbucket n = 16411) ∨
    (32771 ≤ n ∧ get_nbucket n = 32771) := by
  rw [get_nbucket_eq]
  by_cases h0 : n < 3
  · exact Or.inl ⟨h0, if_pos h0⟩
  refine Or.inr ?_
  rw [if_neg h0]
  by_cases h1 : n < 17
  · exact Or.inl ⟨by omega, h1, if_pos h1⟩
  refine Or.inr ?_
  rw [if_neg h1]
  by_cases h2 : n < 37
  · exact Or.inl ⟨by omega, h2, if_pos h2⟩
  refine Or.inr ?_
  rw [if_neg h2]
  by_cases h3 : n < 67
  · exact Or.inl ⟨by omega, h3, if_pos h3⟩
  refine Or.inr ?_
  rw [if_neg h3]
  by_cases h4 : n < 97
  · exact Or.inl ⟨by omega, h4, if_pos h4⟩
  refine Or.inr ?_
  rw [if_neg h4]
  by_cases h5 : n < 131
  · exact Or.inl ⟨by omega, h5, if_pos h5⟩
  refine Or.inr ?_
  rw [if_neg h5]
  by_cases h6 : n < 197
  · exact Or.inl ⟨by omega, h6, if_pos h6⟩
  refine Or.inr ?_
  rw [if_neg h6]
  by_cases h7 : n < 263
  · exact Or.inl ⟨by omega, h7, if_pos h7⟩
  refine Or.inr ?_
  rw [if_neg h7]
  by_cases h8 : n < 521
  · exact Or.inl ⟨by omega, h8, if_pos h8⟩
  refine Or.inr ?_
  rw [if_neg h8]
  by_cases h9 : n < 1031
  · exact Or.inl ⟨by omega, h9, if_pos h9⟩
  refine Or.inr ?_
  rw [if_neg h9]
  by_cases h10 : n < 2053
  · exact Or.inl ⟨by omega, h10, if_pos h10⟩
  refine Or.inr ?_
  rw [if_neg h10]
  by_cases h11 : n < 4099
  · exact Or.inl ⟨by omega, h11, if_pos h11⟩
  refine Or.inr ?_
  rw [if_neg h11]
  by_cases h12 : n < 8209
  · exact Or.inl ⟨by omega, h12, if_pos h12⟩
  refine Or.inr ?_
  rw [if_neg h12]
  by_cases h13 : n < 16411
  · exact Or.inl ⟨by omega, h13, if_pos h13⟩
  refine Or.inr ?_
  rw [if_neg h13]
  by_cases h14 : n < 32771
  · exact Or.inl ⟨by omega, h14, if_pos h14⟩
  refine Or.inr ?_
  rw [if_neg h14]
  exact ⟨by omega, rfl⟩

theorem get_nbucket_pos (n : Nat) : 0 < get_nbucket n := by
  rcases get_nbucket_cases n with h | h | h | h | h | h | h | h | h | h | h | h | h | h | h | h <;>
    omega

theorem get_nbucket_le_max (n : Nat) : get_nbucket n ≤ 32771 := by
  rcases get_nbucket_cases n with h | h | h | h | h | h | h | h | h | h | h | h | h | h | h | h <;>
    omega

/-- C5: `get_nbucket 0 = 1`; for every symbol count `n ≥ 1` the result is a member of the
candidate list, is at most `n`, and no candidate that is at most `n` is larger; and the five
listed values `get_nbucket 2 = 1`, `3 ↦ 3`, `16 ↦ 3`, `17 ↦ 17`, `10000000 ↦ 32771`. -/
theorem get_nbucket_largest_candidate :
    get_nbucket 0 = 1 ∧
    (∀ n, 1 ≤ n →
      get_nbucket n ∈ nbucket_candidates ∧ get_nbucket n ≤ n ∧
      ∀ c ∈ nbucket_candidates, c ≤ n → c ≤ get_nbucket n) ∧
    get_nbucket 2 = 1 ∧ get_nbucket 3 = 3 ∧ get_nbucket 16 = 3 ∧ get_nbucket 17 = 17 ∧
    get_nbucket 10000000 = 32771 := by
  refine ⟨by decide, ?_, by decide, by decide, by decide, by decide, by decide⟩
  intro n hn
  refine ⟨?_, ?_, ?_⟩
  · simp only [nbucket_candidates, List.mem_cons, List.mem_singleton]
    rcases get_nbucket_cases n with
      h | h | h | h | h | h | h | h | h | h | h | h | h | h | h | h <;> omega
  · rcases get_nbucket_cases n with
      h | h | h | h | h | h | h | h | h | h | h | h | h | h | h | h <;> omega
  · intro c hc hcn
    simp only [nbucket_candidates, List.mem_cons, List.mem_singleton, List.not_mem_nil,
      or_false] at hc
    rcases get_nbucket_cases n with
      h | h | h | h | h | h | h | h | h | h | h | h | h | h | h | h <;> omega

/-- C5 at the symbol count 20: the result 17 is a candidate, at most 20, and bounds every
candidate that is at most 20. -/
theorem get_nbucket_largest_candidate_witness :
    1 ≤ 20 ∧ get_nbucket 20 = 17 ∧
      (get_nbucket 20 ∈ nbucket_candidates ∧ get_nbucket 20 ≤ 20 ∧
        ∀ c ∈ nbucket_candidates, c ≤ 20 → c ≤ get_nbucket 20) :=
  ⟨by decide, by decide, get_nbucket_largest_candidate.2.1 20 (by decide)⟩

/-- C6: `get_nbucket` is monotonic non-decreasing in the symbol count. -/
theorem get_nbucket_mono (m n : Nat) (h : m ≤ n) : get_nbucket m ≤ get_nbucket n := by
  rcases get_nbucket_cases m with
    h | h | h | h | h | h | h | h | h | h | h | h | h | h | h | h <;>
  rcases get_nbucket_cases n with
    k | k | k | k | k | k | k | k | k | k | k | k | k | k | k | k <;> omega

/-- C6 at the symbol counts 16 and 17, where the bucket count steps from 3 to 17. -/
theorem get_nbucket_mono_witness :
    16 ≤ 17 ∧ get_nbucket 16 = 3 ∧ get_nbucket 17 = 17 ∧ get_nbucket 16 ≤ get_nbucket 17 :=
  ⟨by decide, by decide, by decide, get_nbucket_mono 16 17 (by decide)⟩

/-- C7: for every symbol count the bucket count is positive and at most `MAX_BUCKETS`
(32771). -/
theorem get_nbucket_bounds (n : Nat) :
    1 ≤ get_nbucket n ∧ get_nbucket n ≤ 32771 ∧ get_nbucket n ≤ MAX_BUCKETS :=
  ⟨get_nbucket_pos n, get_nbucket_le_max n, get_nbucket_le_max n⟩

/-! ## The hash function -/

theorem testBit_0xf0 (i : Nat) :
    Nat.testBit 0xf0 i = (decide (4 ≤ i) && decide (i < 8)) := by
  have h : (0xf0 : Nat) = (2 ^ 4 - 1) <<< 4 := by decide
  rw [h, Nat.testBit_shiftLeft, Nat.testBit_two_pow_sub_one]
  by_cases h4 : 4 ≤ i
  · simp [h4]; omega
  · simp [h4]

theorem testBit_0xf0000000 (i : Nat) :
    Nat.testBit 0xf0000000 i = (decide (28 ≤ i) && decide (i < 32)) := by
  have h : (0xf0000000 : Nat) = (2 ^ 4 - 1) <<< 28 := by decide
  rw [h, Nat.testBit_shiftLeft, Nat.testBit_two_pow_sub_one]
  by_cases h4 : 28 ≤ i
  · simp [h4]; omega
  · simp [h4]

theorem testBit_0xffffffff (i : Nat) : Nat.testBit 0xffffffff i = decide (i < 32) := by
  have h : (0xffffffff : Nat) = 2 ^ 32 - 1 := by decide
  rw [h, Nat.testBit_two_pow_sub_one]

theorem and_0x0fffffff (a : Nat) : a &&& 0x0fffffff = a % 2 ^ 28 := by
  have h : (0x0fffffff : Nat) = 2 ^ 28 - 1 := by decide
  rw [h, Nat.and_pow_two_sub_one_eq_mod]

/-- One byte of folding: the low 28 bits of the value `elf_hash` keeps are the value the
reference keeps after `h ^= g >> 24; h &= ~g`. -/
theorem fold_step (a : Nat) (ha : a < 2 ^ 32) :
    (a ^^^ ((a >>> 24) &&& 0xf0)) % 2 ^ 28 =
      (if a &&& 0xf0000000 ≠ 0 then a ^^^ ((a &&& 0xf0000000) >>> 24) else a)
        &&& (0xffffffff ^^^ (a &&& 0xf0000000)) := by
  have hif : (if a &&& 0xf0000000 ≠ 0 then a ^^^ ((a &&& 0xf0000000) >>> 24) else a)
      = a ^^^ ((a &&& 0xf0000000) >>> 24) := by
    split_ifs with h
    · rfl
    · push_neg at h; rw [h]; simp
  rw [hif]
  apply Nat.eq_of_testBit_eq
  intro i
  have hhi : ∀ j, 32 ≤ j → a.testBit j = false := fun j hj =>
    Nat.testBit_lt_two_pow (lt_of_lt_of_le ha (Nat.pow_le_pow_right (by decide) hj))
  simp only [Nat.testBit_mod_two_pow, Nat.testBit_xor, Nat.testBit_and, Nat.testBit_shiftRight,
    testBit_0xf0, testBit_0xf0000000, testBit_0xffffffff]
  by_cases h28 : i < 28
  · have n28 : ¬ 28 ≤ i := by omega
    have l32 : i < 32 := by omega
    by_cases h4 : 4 ≤ i
    · by_cases h8 : i < 8
      · simp [h28, n28, l32, h4, h8, show 28 ≤ 24 + i by omega, show 24 + i < 32 by omega]
      · simp [h28, n28, l32, h4, h8, hhi (24 + i) (by omega)]
    · simp [h28, n28, l32, h4, show ¬ 28 ≤ 24 + i by omega]
  · by_cases h32 : i < 32
    · simp [h28, h32, show 28 ≤ i by omega, show ¬ (i < 8) by omega, hhi (24 + i) (by omega)]
    · simp [h28, h32, hhi i (by omega)]

/-- The loop of `elf_hash`, reduced to 28 bits, runs in step with the reference. -/
theorem elf_hash_loop_refines (name : List Nat) (hname : ∀ c ∈ name, 0 < c ∧ c < 256)
    (h : Nat) :
    elf_hash_loop name h % 2 ^ 28 = name.foldl sysv_hash_step (h % 2 ^ 28) := by
  induction name generalizing h with
  | nil => simp [elf_hash_loop]
  | cons c rest ih =>
    have hc := hname c (List.mem_cons_self _ _)
    have hrest : ∀ d ∈ rest, 0 < d ∧ d < 256 := fun d hd => hname d (List.mem_cons_of_mem _ hd)
    have hc0 : ¬ c % 256 = 0 := by omega
    simp only [elf_hash_loop, hc0, if_false, List.foldl_cons]
    rw [ih hrest]
    congr 1
    have hadd : ((h <<< 4) % 2 ^ 32 + c % 256) % 2 ^ 32
        = (((h % 2 ^ 28) <<< 4) % 2 ^ 32 + c) % 2 ^ 32 := by
      simp only [Nat.shiftLeft_eq]
      omega
    simp only [sysv_hash_step]
    rw [← hadd]
    exact fold_step _ (Nat.mod_lt _ (by decide))

/-- C3: on every NUL-free byte sequence `elf_hash` (fold with `h ^= (h >> 24) & 0xf0`, one
mask `& 0x0fffffff` at the end) returns the value of the System V gABI reference hash. -/
theorem elf_hash_eq_sysv (name : List Nat) (hname : ∀ c ∈ name, 0 < c ∧ c < 256) :
    elf_hash name = sysv_elf_hash name := by
  unfold elf_hash sysv_elf_hash
  rw [and_0x0fffffff, elf_hash_loop_refines name hname 0]
  rfl

/-- C3 at a seven-byte name of `0xff` bytes, long enough for the fold to act. -/
theorem elf_hash_eq_sysv_witness :
    (∀ c ∈ [255, 255, 255, 255, 255, 255, 255], 0 < c ∧ c < 256) ∧
      elf_hash [255, 255, 255, 255, 255, 255, 255] = 255 ∧
      elf_hash [255, 255, 255, 255, 255, 255, 255] =
        sysv_elf_hash [255, 255, 255, 255, 255, 255, 255] :=
  ⟨by decide, by decide, elf_hash_eq_sysv _ (by decide)⟩

/-- C4: for every name, `elf_hash` is at most `0x0fffffff`: below `2 ^ 28`, so the top four
of its 32 bits are zero. -/
theorem elf_hash_range (name : List Nat) :
    elf_hash name ≤ 0x0fffffff ∧ elf_hash name < 2 ^ 28 ∧ elf_hash name / 2 ^ 28 = 0 := by
  have h : elf_hash name ≤ 0x0fffffff := Nat.and_le_right
  refine ⟨h, ?_, ?_⟩ <;> omega

/-! ## The byte buffer -/

theorem push_byte_ok (byte : Nat) (st : State) (h : st.bytes.length < MAX_BYTES) :
    push_byte byte st = .ok { st with bytes := st.bytes ++ [byte] } := by
  unfold push_byte
  rw [if_neg (by omega)]

theorem push_zeros_ok (count : Nat) (st : State) (h : st.bytes.length + count ≤ MAX_BYTES) :
    push_zeros count st = .ok { st with bytes := st.bytes ++ List.replicate count 0 } := by
  induction count generalizing st with
  | zero => simp [push_zeros]
  | succ c ih =>
    rw [push_zeros, push_byte_ok 0 st (by omega)]
    simp only [bind, Except.bind]
    rw [ih _ (by simp; omega)]
    simp [List.replicate_succ]

theorem le_bytes_zero (byte_count : Nat) : le_bytes 0 byte_count = List.replicate byte_count 0 := by
  induction byte_count with
  | zero => rfl
  | succ c ih => simp [le_bytes, ih, List.replicate_succ]

theorem le_bytes_length (n byte_count : Nat) : (le_bytes n byte_count).length = byte_count := by
  induction byte_count generalizing n with
  | zero => rfl
  | succ c ih => simp [le_bytes, ih]

theorem and_0xff (n : Nat) : n &&& 0xff = n % 256 := by
  have h : (0xff : Nat) = 2 ^ 8 - 1 := by decide
  rw [h, Nat.and_pow_two_sub_one_eq_mod]

/-- The `while` loop of `push_number` followed by the padding writes the little-endian
digits, provided the value fits both the loop bound and `byte_count`. -/
theorem push_number_loop_ok (fuel : Nat) : ∀ (n byte_count : Nat) (st : State),
    n < 256 ^ fuel → n < 256 ^ byte_count → byte_count < 2 ^ 64 →
    st.bytes.length + byte_count ≤ MAX_BYTES →
    (push_number_loop fuel n byte_count st >>= fun r => push_zeros r.1 r.2)
      = .ok { st with bytes := st.bytes ++ le_bytes n byte_count } := by
  induction fuel with
  | zero =>
    intro n bc st hn _ _ hroom
    have h0 : n = 0 := by simpa using hn
    subst h0
    simp only [push_number_loop, bind, Except.bind]
    rw [push_zeros_ok bc st hroom, le_bytes_zero]
  | succ f ih =>
    intro n bc st hn hbc hbc64 hroom
    by_cases h0 : n = 0
    · subst h0
      simp only [push_number_loop, gt_iff_lt, lt_self_iff_false, if_false, bind, Except.bind]
      rw [push_zeros_ok bc st hroom, le_bytes_zero]
    · have hpos : n > 0 := Nat.pos_of_ne_zero h0
      cases bc with
      | zero => simp at hbc; omega
      | succ c =>
        have hdec : (c + 1 + (2 ^ 64 - 1)) % 2 ^ 64 = c := by omega
        have hshift : n >>> 8 = n / 256 := by simp [Nat.shiftRight_eq_div_pow]
        have h1 : n / 256 < 256 ^ f := by
          rw [Nat.div_lt_iff_lt_mul (by decide)]; rw [pow_succ] at hn; exact hn
        have h2 : n / 256 < 256 ^ c := by
          rw [Nat.div_lt_iff_lt_mul (by decide)]; rw [pow_succ] at hbc; exact hbc
        simp only [push_number_loop, hpos, if_true]
        rw [push_byte_ok _ st (by omega)]
        simp only [bind, Except.bind] at ih ⊢
        rw [hdec, hshift, and_0xff]
        have := ih (n / 256) c { st with bytes := st.bytes ++ [n % 256] } h1 h2 (by omega)
          (by simp; omega)
        rw [this]
        simp [le_bytes]

theorem push_number_ok (n byte_count : Nat) (st : State) (hn : n < 256 ^ byte_count)
    (hbc : byte_count ≤ 8) (hroom : st.bytes.length + byte_count ≤ MAX_BYTES) :
    push_number n byte_count st = .ok { st with bytes := st.bytes ++ le_bytes n byte_count } := by
  unfold push_number
  apply push_number_loop_ok 8 n byte_count st _ hn _ hroom
  · exact lt_of_lt_of_le hn (Nat.pow_le_pow_right (by decide) hbc)
  · omega
/-! ## The loops of `push_hash` -/

theorem le_words_append (xs ys : List Nat) : le_words (xs ++ ys) = le_words xs ++ le_words ys := by
  simp [le_words]

theorem le_words_cons (x : Nat) (xs : List Nat) :
    le_words (x :: xs) = le_bytes x 4 ++ le_words xs := by
  simp [le_words]

theorem le_words_length (xs : List Nat) : (le_words xs).length = 4 * xs.length := by
  induction xs with
  | nil => rfl
  | cons x xs ih =>
    rw [le_words_cons, List.length_append, le_bytes_length, ih, List.length_cons]; omega

/-- The loop that emits the buckets appends the words `buckets[i]`, ..,
`buckets[i + remaining - 1]`. -/
theorem push_hash_buckets_loop_ok (remaining : Nat) : ∀ (i : Nat) (st : State),
    (∀ j, i ≤ j → j < i + remaining → st.buckets j < 2 ^ 32) →
    st.bytes.length + 4 * remaining ≤ MAX_BYTES →
    push_hash_buckets_loop remaining i st
      = .ok { st with
          bytes := st.bytes ++ le_words ((List.range' i remaining).map st.buckets) } := by
  induction remaining with
  | zero => intro i st _ _; simp [push_hash_buckets_loop, le_words]
  | succ r ih =>
    intro i st hb hroom
    rw [push_hash_buckets_loop,
      push_number_ok _ 4 st (by have := hb i (by omega) (by omega); omega) (by decide) (by omega)]
    simp only [bind, Except.bind]
    rw [ih (i + 1) { st with bytes := st.bytes ++ le_bytes (st.buckets i) 4 }
      (fun j h1 h2 => hb j (by omega) (by omega)) (by simp [le_bytes_length]; omega)]
    simp [List.range'_succ, le_words_cons]

/-- The loop that emits the chain list appends the words `chains[i]`, ..,
`chains[chains_size - 1]`. -/
theorem push_hash_chains_loop_ok (remaining : Nat) : ∀ (i : Nat) (st : State),
    i + remaining = st.chains.length → (∀ c ∈ st.chains, c < 2 ^ 32) →
    st.bytes.length + 4 * remaining ≤ MAX_BYTES →
    push_hash_chains_loop remaining i st
      = .ok { st with bytes := st.bytes ++ le_words (st.chains.drop i) } := by
  induction remaining with
  | zero =>
    intro i st hlen _ _
    simp [push_hash_chains_loop, le_words,
      List.drop_of_length_le (show st.chains.length ≤ i by omega)]
  | succ r ih =>
    intro i st hlen hc hroom
    have hi : i < st.chains.length := by omega
    have hget : st.chains.getD i 0 = st.chains[i] := by
      simp [List.getD_eq_getElem?_getD, List.getElem?_eq_getElem hi]
    rw [push_hash_chains_loop,
      push_number_ok _ 4 st (by rw [hget]; have := hc _ (List.getElem_mem hi); omega)
        (by decide) (by omega)]
    simp only [bind, Except.bind]
    rw [ih (i + 1) { st with bytes := st.bytes ++ le_bytes (st.chains.getD i 0) 4 }
      (by simp; omega) hc (by simp [le_bytes_length]; omega)]
    simp only [List.append_assoc]
    rw [List.drop_eq_getElem_cons hi, le_words_cons, hget]

/-! ## The construction loop -/

theorem bucket_members_mem (names : List (List Nat)) (nbucket b k i : Nat) :
    i ∈ bucket_members names nbucket b k ↔
      1 ≤ i ∧ i ≤ k ∧ elf_hash (names[i - 1]?.getD []) % nbucket = b := by
  induction k with
  | zero => simp [bucket_members]; omega
  | succ k ih =>
    unfold bucket_members
    by_cases h : elf_hash (names[k]?.getD []) % nbucket = b
    · rw [if_pos h, List.mem_cons, ih]
      constructor
      · rintro (rfl | ⟨h1, h2, h3⟩)
        · exact ⟨by omega, le_refl _, by simpa using h⟩
        · exact ⟨h1, by omega, h3⟩
      · rintro ⟨h1, h2, h3⟩
        by_cases he : i = k + 1
        · exact Or.inl he
        · exact Or.inr ⟨h1, by omega, h3⟩
    · rw [if_neg h, ih]
      constructor
      · rintro ⟨h1, h2, h3⟩
        exact ⟨h1, by omega, h3⟩
      · rintro ⟨h1, h2, h3⟩
        refine ⟨h1, ?_, h3⟩
        by_contra hc
        have he : i = k + 1 := by omega
        subst he
        simp at h3
        exact h h3

theorem bucket_members_pairwise (names : List (List Nat)) (nbucket b k : Nat) :
    (bucket_members names nbucket b k).Pairwise (· > ·) := by
  induction k with
  | zero => simp [bucket_members]
  | succ k ih =>
    unfold bucket_members
    split_ifs with h
    · rw [List.pairwise_cons]
      refine ⟨fun j hj => ?_, ih⟩
      have := (bucket_members_mem names nbucket b k j).1 hj
      omega
    · exact ih

theorem bucket_head_le (names : List (List Nat)) (nbucket b k : Nat) :
    bucket_head names nbucket b k ≤ k := by
  unfold bucket_head
  cases hm : bucket_members names nbucket b k with
  | nil => simp
  | cons x xs =>
    have := (bucket_members_mem names nbucket b k x).1 (by rw [hm]; exact List.mem_cons_self _ _)
    simpa using this.2.1

theorem bucket_head_succ_self (names : List (List Nat)) (nbucket k : Nat) :
    bucket_head names nbucket (elf_hash (names[k]?.getD []) % nbucket) (k + 1) = k + 1 := by
  simp [bucket_head, bucket_members]

theorem bucket_head_succ_other (names : List (List Nat)) (nbucket b k : Nat)
    (h : elf_hash (names[k]?.getD []) % nbucket ≠ b) :
    bucket_head names nbucket b (k + 1) = bucket_head names nbucket b k := by
  simp [bucket_head, bucket_members, h]

theorem chain_value_le (names : List (List Nat)) (nbucket i : Nat) :
    chain_value names nbucket i ≤ i :=
  bucket_head_le _ _ _ _

/-- The construction loop, from iteration `i` on: it succeeds when the names and the chain
list have room for the remaining iterations, leaves `bytes` alone, appends the chain words of
the symbols it inserts and leaves in each bucket its most recent occupant.  `pre` is what the
chain list held when the loop was entered. -/
theorem push_hash_chain_loop_ok (names : List (List Nat)) (nbucket : Nat) (hnb : 0 < nbucket)
    (pre : List Nat) (remaining : Nat) : ∀ (i : Nat) (st : State),
    i + remaining ≤ names.length → i + remaining < 2 ^ 32 →
    pre.length + i + remaining ≤ MAX_SYMBOLS →
    st.chains = pre ++ (List.range i).map (chain_value names nbucket) →
    (∀ b, b < nbucket → st.buckets b = bucket_head names nbucket b i) →
    ∃ st', push_hash_chain_loop names nbucket remaining i st = .ok st' ∧
      st'.bytes = st.bytes ∧
      st'.chains = pre ++ (List.range (i + remaining)).map (chain_value names nbucket) ∧
      (∀ b, b < nbucket → st'.buckets b = bucket_head names nbucket b (i + remaining)) ∧
      (∀ j, nbucket ≤ j → st'.buckets j = st.buckets j) := by
  induction remaining with
  | zero =>
    intro i st _ _ _ hch hbk
    exact ⟨st, rfl, rfl, hch, hbk, fun _ _ => rfl⟩
  | succ r ih =>
    intro i st hlen h32 hcap hch hbk
    have hi : i < names.length := by omega
    have hget : names[i]? = some names[i] := List.getElem?_eq_getElem hi
    have hgetD : names[i]?.getD [] = names[i] := by
      simp [hget]
    have hbi : elf_hash names[i] % nbucket < nbucket := Nat.mod_lt _ hnb
    have hclen : st.chains.length = pre.length + i := by simp [hch]
    have hpush : push_chain (st.buckets (elf_hash names[i] % nbucket)) st
        = .ok { st with chains := st.chains ++ [st.buckets (elf_hash names[i] % nbucket)] } := by
      unfold push_chain
      rw [if_neg (by omega)]
    have hmod : (i + 1) % 2 ^ 32 = i + 1 := Nat.mod_eq_of_lt (by omega)
    obtain ⟨st', hrun, hbytes, hchains, hbuckets, hrest⟩ :=
      ih (i + 1)
        { bytes := st.bytes
          chains := st.chains ++ [st.buckets (elf_hash names[i] % nbucket)]
          buckets := Function.update st.buckets (elf_hash names[i] % nbucket) (i + 1) }
        (by omega) (by omega) (by omega)
        (by
          simp only [List.range_succ, List.map_append, List.map_cons, List.map_nil]
          rw [hch, hbk _ hbi, List.append_assoc]
          simp [chain_value, hgetD])
        (by
          intro b hb
          by_cases hbb : b = elf_hash names[i] % nbucket
          · subst hbb
            simp only [Function.update_same]
            rw [← hgetD, bucket_head_succ_self]
          · simp only [Function.update_noteq hbb]
            rw [hbk b hb, bucket_head_succ_other]
            rw [hgetD]; exact fun h => hbb h.symm)
    refine ⟨st', ?_, hbytes, ?_, ?_, ?_⟩
    · rw [push_hash_chain_loop]
      simp only [hget, hpush, bind, Except.bind, hmod]
      exact hrun
    · rw [hchains, Nat.add_assoc, Nat.add_comm 1 r]
    · intro b hb; rw [hbuckets b hb, Nat.add_assoc, Nat.add_comm 1 r]
    · intro j hj
      rw [hrest j hj]
      simp only
      rw [Function.update_noteq]
      omega

/-! ## Walking the chains -/

/-- A walk that ends keeps its result when the table grows at the end and more steps are
allowed. -/
theorem chain_walk_extend (chain extra : List Nat) (more : Nat) (fuel : Nat) :
    ∀ (index : Nat) (r : List Nat), chain_walk chain fuel index = some r →
      chain_walk (chain ++ extra) (fuel + more) index = some r := by
  induction fuel with
  | zero => intro index r h; simp [chain_walk] at h
  | succ f ih =>
    intro index r h
    rw [show f + 1 + more = (f + more) + 1 by omega]
    rw [chain_walk] at h ⊢
    by_cases h0 : index = 0
    · simpa [h0] using h
    · rw [if_neg h0] at h ⊢
      cases hg : chain[index]? with
      | none => simp [hg] at h
      | some next =>
        have hlt : index < chain.length := by
          by_contra hc
          rw [List.getElem?_eq_none (by omega)] at hg
          exact Option.noConfusion hg
        rw [List.getElem?_append_left hlt, hg]
        rw [hg] at h
        simp only [Option.map_eq_some'] at h ⊢
        obtain ⟨a, ha, rfl⟩ := h
        exact ⟨a, ih next a ha, rfl⟩

/-- The walk returns its starting index first, or nothing when it starts at 0. -/
theorem chain_walk_head (chain : List Nat) (fuel index : Nat) (r : List Nat)
    (h : chain_walk chain fuel index = some r) : index = r.headD 0 := by
  cases fuel with
  | zero => simp [chain_walk] at h
  | succ f =>
    rw [chain_walk] at h
    by_cases h0 : index = 0
    · simp [h0] at h; subst h; simpa using h0
    · rw [if_neg h0] at h
      cases hg : chain[index]? with
      | none => simp [hg] at h
      | some next =>
        rw [hg] at h
        simp only [Option.map_eq_some'] at h
        obtain ⟨a, _, rfl⟩ := h
        rfl

/-- Over the chain table of the first `k` names, the walk from the occupant of bucket `b`
lists the members of `b`. -/
theorem chain_walk_members (names : List (List Nat)) (nbucket b : Nat) (k : Nat) :
    chain_walk (0 :: (List.range k).map (chain_value names nbucket)) (k + 1)
      (bucket_head names nbucket b k) = some (bucket_members names nbucket b k) := by
  induction k with
  | zero => simp [chain_walk, bucket_head, bucket_members]
  | succ k ih =>
    have hext : ∀ r index,
        chain_walk (0 :: (List.range k).map (chain_value names nbucket)) (k + 1) index = some r →
        chain_walk (0 :: (List.range (k + 1)).map (chain_value names nbucket)) (k + 1 + 1) index
          = some r := by
      intro r index h
      have := chain_walk_extend _ [chain_value names nbucket k] 1 _ index r h
      simpa [List.range_succ] using this
    by_cases h : elf_hash (names[k]?.getD []) % nbucket = b
    · subst h
      rw [bucket_head_succ_self, chain_walk, if_neg (by omega)]
      have hidx : (0 :: (List.range (k + 1)).map (chain_value names nbucket))[k + 1]?
          = some (chain_value names nbucket k) := by
        simp [List.range_succ, List.getElem?_append_right]
      rw [hidx]
      have ih' : chain_walk (0 :: (List.range k).map (chain_value names nbucket)) (k + 1)
          (chain_value names nbucket k)
            = some (bucket_members names nbucket (elf_hash (names[k]?.getD []) % nbucket) k) := ih
      have hrest := chain_walk_extend _ [chain_value names nbucket k] 0 _ _ _ ih'
      simp only [Nat.add_zero] at hrest
      have hl : 0 :: (List.range (k + 1)).map (chain_value names nbucket)
          = (0 :: (List.range k).map (chain_value names nbucket))
              ++ [chain_value names nbucket k] := by
        simp [List.range_succ]
      rw [hl]
      simp only []
      rw [hrest]
      simp [bucket_members]
    · rw [bucket_head_succ_other _ _ _ _ h, hext _ _ ih]
      simp [bucket_members, h]

/-! ## The hash table of `push_hash` -/

/-- C1: chain-following.  For at most `MAX_SYMBOLS` names, inserted from an empty chain list
by the construction loop of `push_hash` with `nbucket = get_nbucket (symbol count)`, the loop
returns, and for every bucket `b < nbucket` the walk from `buckets[b]` along the emitted chain
table reaches 0 (with any number of steps above the symbol count) having visited a strictly
decreasing list of indices, which are exactly the 1-based indices `i` with
`elf_hash(names[i-1]) % nbucket = b`. -/
theorem push_hash_chain_following (names : List (List Nat)) (st : State) (b : Nat)
    (hlen : names.length ≤ MAX_SYMBOLS) (hch : st.chains = [])
    (hb : b < get_nbucket names.length) :
    ∃ st', push_hash_chain_loop names (get_nbucket names.length) names.length 0
        (clear_buckets (get_nbucket names.length) st) = .ok st' ∧
      ∃ visited : List Nat,
        (∀ fuel, names.length < fuel →
          chain_walk (chain_array st') fuel (st'.buckets b) = some visited) ∧
        visited.Pairwise (· > ·) ∧
        ∀ i, i ∈ visited ↔
          1 ≤ i ∧ i ≤ names.length ∧
            elf_hash (names[i - 1]?.getD []) % get_nbucket names.length = b := by
  obtain ⟨st', hrun, -, hchains, hbuckets, -⟩ :=
    push_hash_chain_loop_ok names (get_nbucket names.length) (get_nbucket_pos _) []
      names.length 0 (clear_buckets (get_nbucket names.length) st)
      (by omega) (by simp only [MAX_SYMBOLS] at hlen; omega) (by simpa using hlen)
      (by simp [clear_buckets, hch])
      (by intro c hc; simp [clear_buckets, hc, bucket_head, bucket_members])
  refine ⟨st', hrun, bucket_members names (get_nbucket names.length) b names.length, ?_,
    bucket_members_pairwise _ _ _ _, fun i => bucket_members_mem _ _ _ _ i⟩
  intro fuel hfuel
  have hw := chain_walk_extend _ [] (fuel - (names.length + 1)) _ _ _
    (chain_walk_members names (get_nbucket names.length) b names.length)
  rw [List.append_nil, show names.length + 1 + (fuel - (names.length + 1)) = fuel by omega] at hw
  simp only [Nat.zero_add, List.nil_append] at hchains hbuckets
  rw [chain_array, hchains, hbuckets b hb]
  exact hw

/-- C1 at the sixteen names of `generate_simple_so` and bucket 0. -/
theorem push_hash_chain_following_witness :
    simple_symbols.length ≤ MAX_SYMBOLS ∧ initial_state.chains = [] ∧
      0 < get_nbucket simple_symbols.length ∧
      ∃ st', push_hash_chain_loop simple_symbols (get_nbucket simple_symbols.length)
          simple_symbols.length 0
          (clear_buckets (get_nbucket simple_symbols.length) initial_state) = .ok st' ∧
        ∃ visited : List Nat,
          (∀ fuel, simple_symbols.length < fuel →
            chain_walk (chain_array st') fuel (st'.buckets 0) = some visited) ∧
          visited.Pairwise (· > ·) ∧
          ∀ i, i ∈ visited ↔
            1 ≤ i ∧ i ≤ simple_symbols.length ∧
              elf_hash (simple_symbols[i - 1]?.getD []) % get_nbucket simple_symbols.length = 0 :=
  ⟨by decide, rfl, by decide,
    push_hash_chain_following simple_symbols initial_state 0 (by decide) rfl (by decide)⟩

/-- C2: when the chain list has room for the names, the construction loop of `push_hash`
returns, and then for every bucket `b < nbucket`: `buckets[b]` is 0 if no name hashes to `b`,
and is `i` if `i` is the largest 1-based index whose name hashes to `b`. -/
theorem push_hash_bucket_heads (names : List (List Nat)) (st : State) (b : Nat)
    (hcap : st.chains.length + names.length ≤ MAX_SYMBOLS)
    (hb : b < get_nbucket names.length) :
    ∃ st', push_hash_chain_loop names (get_nbucket names.length) names.length 0
        (clear_buckets (get_nbucket names.length) st) = .ok st' ∧
      ((∀ i, i < names.length →
          elf_hash (names[i]?.getD []) % get_nbucket names.length ≠ b) →
        st'.buckets b = 0) ∧
      (∀ i, 1 ≤ i → i ≤ names.length →
        elf_hash (names[i - 1]?.getD []) % get_nbucket names.length = b →
        (∀ j, i < j → j ≤ names.length →
          elf_hash (names[j - 1]?.getD []) % get_nbucket names.length ≠ b) →
        st'.buckets b = i) := by
  obtain ⟨st', hrun, -, -, hbuckets, -⟩ :=
    push_hash_chain_loop_ok names (get_nbucket names.length) (get_nbucket_pos _) st.chains
      names.length 0 (clear_buckets (get_nbucket names.length) st)
      (by omega) (by simp only [MAX_SYMBOLS] at hcap; omega) (by simpa using hcap)
      (by simp [clear_buckets])
      (by intro c hc; simp [clear_buckets, hc, bucket_head, bucket_members])
  simp only [Nat.zero_add] at hbuckets
  refine ⟨st', hrun, ?_, ?_⟩
  · intro hnone
    rw [hbuckets b hb, bucket_head]
    cases hm : bucket_members names (get_nbucket names.length) b names.length with
    | nil => rfl
    | cons x xs =>
      have hx := (bucket_members_mem names _ b names.length x).1
        (by rw [hm]; exact List.mem_cons_self _ _)
      exact absurd hx.2.2 (hnone (x - 1) (by omega))
  · intro i h1 h2 hi hlast
    rw [hbuckets b hb, bucket_head]
    have hmem := (bucket_members_mem names _ b names.length i).2 ⟨h1, h2, hi⟩
    have hpw := bucket_members_pairwise names (get_nbucket names.length) b names.length
    cases hm : bucket_members names (get_nbucket names.length) b names.length with
    | nil => rw [hm] at hmem; simp at hmem
    | cons x xs =>
      have hx := (bucket_members_mem names _ b names.length x).1
        (by rw [hm]; exact List.mem_cons_self _ _)
      rw [hm] at hmem hpw
      simp only [List.headD_cons]
      rcases List.mem_cons.1 hmem with rfl | hxs
      · rfl
      · have hgt := (List.pairwise_cons.1 hpw).1 i hxs
        exact absurd hx.2.2 (hlast x hgt hx.2.1)

/-- C2 at the sixteen names of `generate_simple_so` and bucket 0 (whose last member is
symbol 11, `"c"`). -/
theorem push_hash_bucket_heads_witness :
    initial_state.chains.length + simple_symbols.length ≤ MAX_SYMBOLS ∧
      0 < get_nbucket simple_symbols.length ∧
      ∃ st', push_hash_chain_loop simple_symbols (get_nbucket simple_symbols.length)
          simple_symbols.length 0
          (clear_buckets (get_nbucket simple_symbols.length) initial_state) = .ok st' ∧
        ((∀ i, i < simple_symbols.length →
            elf_hash (simple_symbols[i]?.getD []) % get_nbucket simple_symbols.length ≠ 0) →
          st'.buckets 0 = 0) ∧
        (∀ i, 1 ≤ i → i ≤ simple_symbols.length →
          elf_hash (simple_symbols[i - 1]?.getD []) % get_nbucket simple_symbols.length = 0 →
          (∀ j, i < j → j ≤ simple_symbols.length →
            elf_hash (simple_symbols[j - 1]?.getD []) % get_nbucket simple_symbols.length ≠ 0) →
          st'.buckets 0 = i) :=
  ⟨by decide, by decide,
    push_hash_bucket_heads simple_symbols initial_state 0 (by decide) (by decide)⟩

/-- What `push_hash` does for `symbol_count` names when nothing overflows: `pre` being the
chain list on entry, it appends the words `nbucket`, `1 + symbol_count`, the occupants of the
buckets, 0, and the whole chain list (`pre` followed by the new chain words). -/
theorem push_hash_body_ok (symbol_count : Nat) (names : List (List Nat)) (st : State)
    (hk : symbol_count ≤ names.length)
    (hcap : st.chains.length + symbol_count ≤ MAX_SYMBOLS)
    (hpre : ∀ c ∈ st.chains, c < 2 ^ 32)
    (hroom : st.bytes.length
      + 4 * (2 + get_nbucket symbol_count + (1 + (st.chains.length + symbol_count))) ≤ MAX_BYTES) :
    ∃ st', push_hash_body symbol_count names st = .ok st' ∧
      st'.bytes = st.bytes ++ le_words
        ([get_nbucket symbol_count, symbol_count + 1]
          ++ (List.range (get_nbucket symbol_count)).map
              (fun b => bucket_head names (get_nbucket symbol_count) b symbol_count)
          ++ 0 :: (st.chains
              ++ (List.range symbol_count).map (chain_value names (get_nbucket symbol_count)))) ∧
      st'.chains = st.chains
        ++ (List.range symbol_count).map (chain_value names (get_nbucket symbol_count)) ∧
      ∀ b, b < get_nbucket symbol_count →
        st'.buckets b = bucket_head names (get_nbucket symbol_count) b symbol_count := by
  have hnb := get_nbucket_le_max symbol_count
  have hnbpos := get_nbucket_pos symbol_count
  simp only [MAX_SYMBOLS] at hcap
  have hmod : (1 + symbol_count) % 2 ^ 32 = symbol_count + 1 := by omega
  -- the two header words
  have h1 := push_number_ok (get_nbucket symbol_count) 4 st (by omega) (by decide) (by omega)
  have h2 := push_number_ok (symbol_count + 1) 4
    { st with bytes := st.bytes ++ le_bytes (get_nbucket symbol_count) 4 }
    (by omega) (by decide) (by simp [le_bytes_length]; omega)
  -- the construction loop
  obtain ⟨st3, h3, hb3, hc3, hk3, -⟩ :=
    push_hash_chain_loop_ok names (get_nbucket symbol_count) hnbpos st.chains symbol_count 0
      (clear_buckets (get_nbucket symbol_count)
        { st with bytes := st.bytes ++ le_bytes (get_nbucket symbol_count) 4
                              ++ le_bytes (symbol_count + 1) 4 })
      (by omega) (by omega) (by simp only [MAX_SYMBOLS]; omega)
      (by simp [clear_buckets])
      (by intro c hc; simp [clear_buckets, hc, bucket_head, bucket_members])
  simp only [Nat.zero_add] at hc3 hk3
  simp only [clear_buckets] at hb3
  have hlen3 : st3.bytes.length = st.bytes.length + 8 := by
    rw [hb3]; simp [le_bytes_length]
  have hclen3 : st3.chains.length = st.chains.length + symbol_count := by
    rw [hc3]; simp
  -- the bucket words
  have h4 := push_hash_buckets_loop_ok (get_nbucket symbol_count) 0 st3
    (by
      intro j _ hj
      rw [hk3 j (by omega)]
      have := bucket_head_le names (get_nbucket symbol_count) j symbol_count
      omega)
    (by omega)
  -- the word 0 and the chain words
  have h5 := push_number_ok 0 4
    { st3 with bytes := st3.bytes
        ++ le_words ((List.range' 0 (get_nbucket symbol_count)).map st3.buckets) }
    (by decide) (by decide)
    (by simp [le_words_length]; omega)
  have hc3lt : ∀ c ∈ st3.chains, c < 2 ^ 32 := by
    intro c hc
    rw [hc3, List.mem_append] at hc
    rcases hc with hc | hc
    · exact hpre c hc
    · obtain ⟨i, hi, rfl⟩ := List.mem_map.1 hc
      have := chain_value_le names (get_nbucket symbol_count) i
      have := List.mem_range.1 hi
      omega
  have h6 := push_hash_chains_loop_ok st3.chains.length 0
    { st3 with bytes := st3.bytes
        ++ le_words ((List.range' 0 (get_nbucket symbol_count)).map st3.buckets)
        ++ le_bytes 0 4 }
    (by simp) hc3lt
    (by simp [le_words_length, le_bytes_length]; omega)
  have hmap : (List.range' 0 (get_nbucket symbol_count)).map st3.buckets
      = (List.range (get_nbucket symbol_count)).map
          (fun b => bucket_head names (get_nbucket symbol_count) b symbol_count) := by
    rw [← List.range_eq_range']
    apply List.map_congr_left
    intro b hb
    exact hk3 b (List.mem_range.1 hb)
  dsimp only at h2 h5 h6
  refine ⟨{ bytes := st3.bytes
              ++ le_words ((List.range' 0 (get_nbucket symbol_count)).map st3.buckets)
              ++ le_bytes 0 4 ++ le_words (st3.chains.drop 0)
            chains := st3.chains
            buckets := st3.buckets }, ?_, ?_, hc3, hk3⟩
  · unfold push_hash_body
    simp only [hmod, h1, bind, Except.bind, h2, h3, h4, h5]
    exact h6
  · simp only [List.drop_zero]
    rw [hb3, hmap, hc3]
    simp only [List.cons_append, List.nil_append, List.append_assoc, le_words_append,
      le_words_cons]

/-- C8: the worked example.  For the sixteen names of `generate_simple_so`, from an empty
chain list and with room for the 88 bytes: `get_nbucket 16 = 3`; each name hashes to its ASCII
code and to the bucket index of the table in the comment of `push_hash`; `push_hash` returns
and appends the words `nbucket = 3`, `nchain = 17`, the buckets `11, 16, 15` and the chain
table `0, 0, 0, 2, 1, 0, 3, 5, 7, 4, 8, 10, 6, 9, 12, 13, 14`. -/
theorem push_hash_worked_example (st : State) (hch : st.chains = [])
    (hroom : st.bytes.length + 88 ≤ MAX_BYTES) :
    get_nbucket 16 = 3 ∧
    simple_symbols.map elf_hash
      = [98, 112, 106, 110, 102, 103, 111, 108, 107, 105, 99, 100, 104, 97, 101, 109] ∧
    simple_symbols.map (fun name => elf_hash name % get_nbucket 16)
      = [2, 1, 1, 2, 0, 1, 0, 0, 2, 0, 0, 1, 2, 1, 2, 1] ∧
    elf_hash [99] = 99 ∧ elf_hash [109] = 109 ∧ elf_hash [101] = 101 ∧
    ∃ st', push_hash simple_symbols st = .ok st' ∧
      st'.bytes = st.bytes ++ le_words
        ([3, 17] ++ [11, 16, 15] ++ [0, 0, 0, 2, 1, 0, 3, 5, 7, 4, 8, 10, 6, 9, 12, 13, 14]) ∧
      (List.range 3).map st'.buckets = [11, 16, 15] ∧
      chain_array st' = [0, 0, 0, 2, 1, 0, 3, 5, 7, 4, 8, 10, 6, 9, 12, 13, 14] := by
  refine ⟨by decide, by decide, by decide, by decide, by decide, by decide, ?_⟩
  have hnb : get_nbucket 16 = 3 := by decide
  obtain ⟨st', hrun, hbytes, hchains, hbuckets⟩ :=
    push_hash_body_ok 16 simple_symbols st (by decide) (by rw [hch]; decide)
      (by rw [hch]; simp) (by rw [hch, hnb]; simp only [List.length_nil]; omega)
  have hheads : (List.range 3).map (fun b => bucket_head simple_symbols 3 b 16) = [11, 16, 15] := by
    decide
  have hvalues : (List.range 16).map (chain_value simple_symbols 3)
      = [0, 0, 2, 1, 0, 3, 5, 7, 4, 8, 10, 6, 9, 12, 13, 14] := by
    decide
  rw [hnb] at hbytes hchains hbuckets
  rw [hch, hheads, hvalues] at hbytes
  rw [hch, hvalues] at hchains
  refine ⟨st', hrun, hbytes, ?_, ?_⟩
  · have h0 := hbuckets 0 (by decide)
    have h1 := hbuckets 1 (by decide)
    have h2 := hbuckets 2 (by decide)
    have e0 : bucket_head simple_symbols 3 0 16 = 11 := by decide
    have e1 : bucket_head simple_symbols 3 1 16 = 16 := by decide
    have e2 : bucket_head simple_symbols 3 2 16 = 15 := by decide
    simp [List.range_succ, h0, h1, h2, e0, e1, e2]
  · rw [chain_array, hchains]
    rfl

/-- C8 at the state the program starts in. -/
theorem push_hash_worked_example_witness :
    initial_state.chains = [] ∧ initial_state.bytes.length + 88 ≤ MAX_BYTES ∧
    bytes_of (push_hash simple_symbols initial_state) = some (le_words
        ([3, 17] ++ [11, 16, 15] ++ [0, 0, 0, 2, 1, 0, 3, 5, 7, 4, 8, 10, 6, 9, 12, 13, 14])) ∧
    ∃ st', push_hash simple_symbols initial_state = .ok st' ∧
      st'.bytes = initial_state.bytes ++ le_words
        ([3, 17] ++ [11, 16, 15] ++ [0, 0, 0, 2, 1, 0, 3, 5, 7, 4, 8, 10, 6, 9, 12, 13, 14]) ∧
      (List.range 3).map st'.buckets = [11, 16, 15] ∧
      chain_array st' = [0, 0, 0, 2, 1, 0, 3, 5, 7, 4, 8, 10, 6, 9, 12, 13, 14] :=
  ⟨rfl, by decide, by decide,
    (push_hash_worked_example initial_state rfl (by decide)).2.2.2.2.2.2⟩

set_option maxRecDepth 100000 in
/-- C9, as stated, fails: `push_hash` run a second time without `reset` on sixteen names `"a"`
writes `nchain = 17` in the header and then 33 chain words, 38 words in all, not
`2 + get_nbucket 16 + (16 + 1) = 22`. -/
theorem push_hash_table_layout_counterexample :
    bytes_of (push_hash (List.replicate 16 [97]) initial_state)
      = some (le_words ([3, 17] ++ [0, 16, 0]
          ++ [0, 0, 1, 2, 3, 4, 5, 6, 7, 8, 9, 10, 11, 12, 13, 14, 15])) ∧
    bytes_of (push_hash (List.replicate 16 [97]) initial_state
        >>= push_hash (List.replicate 16 [97]))
      = some (le_words ([3, 17] ++ [0, 16, 0]
            ++ [0, 0, 1, 2, 3, 4, 5, 6, 7, 8, 9, 10, 11, 12, 13, 14, 15])
          ++ le_words ([3, 17] ++ [0, 16, 0]
            ++ [0, 0, 1, 2, 3, 4, 5, 6, 7, 8, 9, 10, 11, 12, 13, 14, 15,
                0, 1, 2, 3, 4, 5, 6, 7, 8, 9, 10, 11, 12, 13, 14, 15])) ∧
    [0, 0, 1, 2, 3, 4, 5, 6, 7, 8, 9, 10, 11, 12, 13, 14, 15,
      0, 1, 2, 3, 4, 5, 6, 7, 8, 9, 10, 11, 12, 13, 14, 15].length ≠ 17 ∧
    ([3, 17] ++ [0, 16, 0]
      ++ [0, 0, 1, 2, 3, 4, 5, 6, 7, 8, 9, 10, 11, 12, 13, 14, 15,
          0, 1, 2, 3, 4, 5, 6, 7, 8, 9, 10, 11, 12, 13, 14, 15]).length
      ≠ 2 + get_nbucket 16 + (16 + 1) := by
  refine ⟨by decide, by decide, by decide, by decide⟩

/-- C9, amended: for every symbol count `k`, the body of `push_hash` run with
`symbol_count = k` on at least `k` names, from an empty chain list and with room in the byte
buffer for `2 + get_nbucket k + (k + 1)` words, returns and appends exactly these 4-byte
little-endian words: `get_nbucket k`, `k + 1`, the `get_nbucket k` bucket values, then the
`k + 1` chain values, the first of which is 0; every word is below `2 ^ 32`. -/
theorem push_hash_table_layout (k : Nat) (names : List (List Nat)) (st : State)
    (hk : k ≤ names.length) (hch : st.chains = [])
    (hroom : st.bytes.length + 4 * (2 + get_nbucket k + (k + 1)) ≤ MAX_BYTES) :
    ∃ st', push_hash_body k names st = .ok st' ∧
      st'.bytes = st.bytes ++ le_words
        ([get_nbucket k, k + 1] ++ (List.range (get_nbucket k)).map st'.buckets
          ++ chain_array st') ∧
      st'.bytes.length = st.bytes.length + 4 * (2 + get_nbucket k + (k + 1)) ∧
      ((List.range (get_nbucket k)).map st'.buckets).length = get_nbucket k ∧
      (chain_array st').length = k + 1 ∧
      (chain_array st')[0]? = some 0 ∧
      ∀ w ∈ [get_nbucket k, k + 1] ++ (List.range (get_nbucket k)).map st'.buckets
          ++ chain_array st', w < 2 ^ 32 := by
  have hnb := get_nbucket_le_max k
  have hk32 : k + 1 < 2 ^ 32 := by simp only [MAX_BYTES] at hroom; omega
  obtain ⟨st', hrun, hbytes, hchains, hbuckets⟩ :=
    push_hash_body_ok k names st hk
      (by rw [hch]; simp only [MAX_SYMBOLS, MAX_BYTES, List.length_nil] at hroom ⊢; omega)
      (by rw [hch]; simp)
      (by rw [hch]; simp only [List.length_nil]; omega)
  rw [hch, List.nil_append] at hbytes hchains
  have hmap : (List.range (get_nbucket k)).map st'.buckets
      = (List.range (get_nbucket k)).map (fun b => bucket_head names (get_nbucket k) b k) := by
    apply List.map_congr_left
    intro b hb
    exact hbuckets b (List.mem_range.1 hb)
  have hbytes' : st'.bytes = st.bytes ++ le_words
      ([get_nbucket k, k + 1] ++ (List.range (get_nbucket k)).map st'.buckets
        ++ chain_array st') := by
    rw [hbytes, hmap, chain_array, hchains]
  refine ⟨st', hrun, hbytes', ?_, by simp, by simp [chain_array, hchains], by simp [chain_array],
    ?_⟩
  · rw [hbytes', List.length_append, le_words_length]
    simp [chain_array, hchains]
    omega
  · intro w hw
    rw [hmap, chain_array, hchains] at hw
    simp only [List.mem_append, List.mem_cons, List.mem_map, List.mem_range, List.mem_singleton,
      List.not_mem_nil, or_false] at hw
    rcases hw with ((rfl | rfl) | ⟨b, _, rfl⟩) | rfl | ⟨i, hi, rfl⟩
    · omega
    · exact hk32
    · have := bucket_head_le names (get_nbucket k) b k; omega
    · decide
    · have := chain_value_le names (get_nbucket k) i; omega

/-- C9 (amended) at the sixteen names of `generate_simple_so` and the state the program
starts in. -/
theorem push_hash_table_layout_witness :
    16 ≤ simple_symbols.length ∧ initial_state.chains = [] ∧
    initial_state.bytes.length + 4 * (2 + get_nbucket 16 + (16 + 1)) ≤ MAX_BYTES ∧
    ∃ st', push_hash_body 16 simple_symbols initial_state = .ok st' ∧
      st'.bytes = initial_state.bytes ++ le_words
        ([get_nbucket 16, 16 + 1] ++ (List.range (get_nbucket 16)).map st'.buckets
          ++ chain_array st') ∧
      st'.bytes.length = initial_state.bytes.length + 4 * (2 + get_nbucket 16 + (16 + 1)) ∧
      ((List.range (get_nbucket 16)).map st'.buckets).length = get_nbucket 16 ∧
      (chain_array st').length = 16 + 1 ∧
      (chain_array st')[0]? = some 0 ∧
      ∀ w ∈ [get_nbucket 16, 16 + 1] ++ (List.range (get_nbucket 16)).map st'.buckets
          ++ chain_array st', w < 2 ^ 32 :=
  ⟨by decide, rfl, by decide,
    push_hash_table_layout 16 simple_symbols initial_state (by decide) rfl (by decide)⟩

set_option maxRecDepth 100000 in
/-- C10, as stated, fails: `push_hash` invoked twice in a row on the names of
`generate_simple_so` appends 22 words the first time and 38 the second time, because the
second invocation emits the chain words of the first one again. -/
theorem push_hash_idempotent_counterexample :
    bytes_of (push_hash simple_symbols initial_state)
      = some (le_words
          [3, 17, 11, 16, 15, 0, 0, 0, 2, 1, 0, 3, 5, 7, 4, 8, 10, 6, 9, 12, 13, 14]) ∧
    bytes_of (push_hash simple_symbols initial_state >>= push_hash simple_symbols)
      = some (le_words
            [3, 17, 11, 16, 15, 0, 0, 0, 2, 1, 0, 3, 5, 7, 4, 8, 10, 6, 9, 12, 13, 14]
          ++ le_words
            [3, 17, 11, 16, 15, 0, 0, 0, 2, 1, 0, 3, 5, 7, 4, 8, 10, 6, 9, 12, 13, 14,
              0, 0, 2, 1, 0, 3, 5, 7, 4, 8, 10, 6, 9, 12, 13, 14]) ∧
    le_words [3, 17, 11, 16, 15, 0, 0, 0, 2, 1, 0, 3, 5, 7, 4, 8, 10, 6, 9, 12, 13, 14,
        0, 0, 2, 1, 0, 3, 5, 7, 4, 8, 10, 6, 9, 12, 13, 14]
      ≠ le_words [3, 17, 11, 16, 15, 0, 0, 0, 2, 1, 0, 3, 5, 7, 4, 8, 10, 6, 9, 12, 13, 14] := by
  refine ⟨by decide, by decide, by decide⟩

/-- C10, amended: with `reset` before each invocation the builder is idempotent.  For at
least `k` names and a table that fits the byte buffer, the body of `push_hash` with
`symbol_count = k` run after `reset` from any two states (whatever `bytes`, `chains` and the
static `buckets` held before) returns both times and leaves the same bytes. -/
theorem push_hash_idempotent_after_reset (k : Nat) (names : List (List Nat)) (st1 st2 : State)
    (hk : k ≤ names.length)
    (hroom : 4 * (2 + get_nbucket k + (k + 1)) ≤ MAX_BYTES) :
    ∃ st1' st2', push_hash_body k names (reset st1) = .ok st1' ∧
      push_hash_body k names (reset st2) = .ok st2' ∧
      st1'.bytes = st2'.bytes := by
  have hcap : k ≤ MAX_SYMBOLS := by simp only [MAX_SYMBOLS, MAX_BYTES] at hroom ⊢; omega
  obtain ⟨st1', hrun1, hbytes1, -, -⟩ :=
    push_hash_body_ok k names (reset st1) hk (by simpa [reset] using hcap) (by simp [reset])
      (by simp only [reset, List.length_nil]; omega)
  obtain ⟨st2', hrun2, hbytes2, -, -⟩ :=
    push_hash_body_ok k names (reset st2) hk (by simpa [reset] using hcap) (by simp [reset])
      (by simp only [reset, List.length_nil]; omega)
  exact ⟨st1', st2', hrun1, hrun2, by rw [hbytes1, hbytes2]; rfl⟩

/-- C10 (amended) at the names of `generate_simple_so`: the state the program starts in and a
state holding stale bytes, chain words and bucket values. -/
theorem push_hash_idempotent_after_reset_witness :
    16 ≤ simple_symbols.length ∧ 4 * (2 + get_nbucket 16 + (16 + 1)) ≤ MAX_BYTES ∧
    ∃ st1' st2', push_hash_body 16 simple_symbols (reset initial_state) = .ok st1' ∧
      push_hash_body 16 simple_symbols
        (reset { bytes := [1, 2, 3], chains := [4, 5], buckets := fun _ => 6 }) = .ok st2' ∧
      st1'.bytes = st2'.bytes :=
  ⟨by decide, by decide,
    push_hash_idempotent_after_reset 16 simple_symbols initial_state
      { bytes := [1, 2, 3], chains := [4, 5], buckets := fun _ => 6 } (by decide) (by decide)⟩

/-! ## The byte buffer: little-endian numbers, bounds and failures -/

theorem le_value_le_bytes (byte_count : Nat) : ∀ n, n < 256 ^ byte_count →
    le_value (le_bytes n byte_count) = n := by
  induction byte_count with
  | zero => intro n hn; simp at hn; subst hn; rfl
  | succ c ih =>
    intro n hn
    have h : n / 256 < 256 ^ c := by
      rw [Nat.div_lt_iff_lt_mul (by decide)]; rw [pow_succ] at hn; exact hn
    simp only [le_bytes, le_value, ih _ h]
    omega

theorem le_bytes_lt (byte_count : Nat) : ∀ n, ∀ b ∈ le_bytes n byte_count, b < 256 := by
  induction byte_count with
  | zero => intro n b hb; simp [le_bytes] at hb
  | succ c ih =>
    intro n b hb
    simp only [le_bytes, List.mem_cons] at hb
    rcases hb with rfl | hb
    · exact Nat.mod_lt _ (by decide)
    · exact ih _ b hb

theorem le_bytes_getElem (byte_count : Nat) : ∀ n i, i < byte_count →
    (le_bytes n byte_count)[i]? = some (n / 256 ^ i % 256) := by
  induction byte_count with
  | zero => intro n i hi; omega
  | succ c ih =>
    intro n i hi
    cases i with
    | zero => simp [le_bytes]
    | succ j =>
      simp only [le_bytes, List.getElem?_cons_succ]
      rw [ih (n / 256) j (by omega), Nat.div_div_eq_div_mul, pow_succ, Nat.mul_comm]

/-- The form of `push_number_ok` for a `u64` value and any `byte_count` that fits it. -/
theorem push_number_ok_u64 (n byte_count : Nat) (st : State) (h64 : n < 2 ^ 64)
    (hn : n < 256 ^ byte_count) (hroom : st.bytes.length + byte_count ≤ MAX_BYTES) :
    push_number n byte_count st = .ok { st with bytes := st.bytes ++ le_bytes n byte_count } := by
  unfold push_number
  apply push_number_loop_ok 8 n byte_count st _ hn _ hroom
  · exact h64
  · simp only [MAX_BYTES] at hroom; omega

/-- C11: `push_number` encodes fixed-width little-endian.  For every `u64` value `n` below
`256 ^ byte_count` and a buffer with room for `byte_count` bytes, `push_number(n, byte_count)`
returns and appends exactly `byte_count` bytes, byte `i` being `n / 256 ^ i % 256` (least
significant first); each is below 256 and their little-endian value is `n`. -/
theorem push_number_little_endian (n byte_count : Nat) (st : State) (h64 : n < 2 ^ 64)
    (hn : n < 256 ^ byte_count) (hroom : st.bytes.length + byte_count ≤ MAX_BYTES) :
    ∃ out : List Nat,
      push_number n byte_count st = .ok { st with bytes := st.bytes ++ out } ∧
      out.length = byte_count ∧
      (∀ i, i < byte_count → out[i]? = some (n / 256 ^ i % 256)) ∧
      (∀ b ∈ out, b < 256) ∧
      le_value out = n :=
  ⟨le_bytes n byte_count, push_number_ok_u64 n byte_count st h64 hn hroom,
    le_bytes_length n byte_count, le_bytes_getElem byte_count n, le_bytes_lt byte_count n,
    le_value_le_bytes byte_count n hn⟩

/-- C11 at `push_number(0x1f50, 8)` on the empty buffer. -/
theorem push_number_little_endian_witness :
    0x1f50 < 2 ^ 64 ∧ 0x1f50 < 256 ^ 8 ∧ initial_state.bytes.length + 8 ≤ MAX_BYTES ∧
    bytes_of (push_number 0x1f50 8 initial_state) = some [0x50, 0x1f, 0, 0, 0, 0, 0, 0] ∧
    ∃ out : List Nat,
      push_number 0x1f50 8 initial_state
        = .ok { initial_state with bytes := initial_state.bytes ++ out } ∧
      out.length = 8 ∧
      (∀ i, i < 8 → out[i]? = some (0x1f50 / 256 ^ i % 256)) ∧
      (∀ b ∈ out, b < 256) ∧
      le_value out = 0x1f50 :=
  ⟨by decide, by decide, by decide, by decide,
    push_number_little_endian 0x1f50 8 initial_state (by decide) (by decide) (by decide)⟩

theorem push_byte_eq_ok (byte : Nat) (st st' : State) (h : push_byte byte st = .ok st') :
    st.bytes.length < MAX_BYTES ∧ st' = { st with bytes := st.bytes ++ [byte] } := by
  unfold push_byte at h
  split_ifs at h with hc
  · injection h with h
    exact ⟨by omega, h.symm⟩

theorem push_byte_full (byte : Nat) (st : State) (h : MAX_BYTES ≤ st.bytes.length) :
    push_byte byte st = .error .max_bytes := by
  unfold push_byte
  rw [if_pos (by omega)]

theorem push_byte_error (byte : Nat) (st : State) (e : Error)
    (h : push_byte byte st = .error e) : e = .max_bytes := by
  unfold push_byte at h
  split_ifs at h with hc
  · injection h with h
    exact h.symm

theorem appendOnly_push_byte (byte : Nat) : AppendOnly (push_byte byte) := by
  refine ⟨fun st st' h => ?_, fun st e h => push_byte_error byte st e h⟩
  obtain ⟨hlt, rfl⟩ := push_byte_eq_ok byte st st' h
  exact ⟨⟨[byte], rfl⟩, fun _ => by simp; omega, rfl, rfl⟩

theorem appendOnly_ok : AppendOnly (fun st => Except.ok st) := by
  refine ⟨fun st st' h => ?_, fun st e h => by cases h⟩
  injection h with h
  subst h
  exact ⟨⟨[], by simp⟩, fun h => h, rfl, rfl⟩

theorem appendOnly_bind (f g : State → Except Error State) (hf : AppendOnly f)
    (hg : AppendOnly g) : AppendOnly (fun st => f st >>= g) := by
  refine ⟨fun st st' h => ?_, fun st e h => ?_⟩
  · simp only [bind, Except.bind] at h
    cases hfs : f st with
    | error e => rw [hfs] at h; cases h
    | ok st1 =>
      rw [hfs] at h
      obtain ⟨⟨o1, h1⟩, hb1, hc1, hk1⟩ := hf.1 st st1 hfs
      obtain ⟨⟨o2, h2⟩, hb2, hc2, hk2⟩ := hg.1 st1 st' h
      exact ⟨⟨o1 ++ o2, by rw [h2, h1, List.append_assoc]⟩, fun hh => hb2 (hb1 hh),
        hc2.trans hc1, hk2.trans hk1⟩
  · simp only [bind, Except.bind] at h
    cases hfs : f st with
    | error e1 => rw [hfs] at h; injection h with h; subst h; exact hf.2 st e1 hfs
    | ok st1 => rw [hfs] at h; exact hg.2 st1 e h

theorem appendOnly_kleisli (f g : State → Except Error State) (hf : AppendOnly f)
    (hg : AppendOnly g) : AppendOnly (f >=> g) :=
  appendOnly_bind f g hf hg

theorem appendOnly_push_zeros (count : Nat) : AppendOnly (push_zeros count) := by
  induction count with
  | zero => exact appendOnly_ok
  | succ c ih => exact appendOnly_bind (push_byte 0) (push_zeros c) (appendOnly_push_byte 0) ih

theorem appendOnly_push_string_loop (str : List Nat) : AppendOnly (push_string_loop str) := by
  induction str with
  | nil => exact appendOnly_ok
  | cons c rest ih =>
    by_cases hc : c % 256 = 0
    · have : push_string_loop (c :: rest) = fun st => Except.ok st := by
        funext st; simp [push_string_loop, hc]
      rw [this]; exact appendOnly_ok
    · have : push_string_loop (c :: rest)
          = fun st => push_byte (c % 256) st >>= push_string_loop rest := by
        funext st; simp [push_string_loop, hc]
      rw [this]
      exact appendOnly_bind _ _ (appendOnly_push_byte _) ih

theorem appendOnly_push_string (str : List Nat) : AppendOnly (push_string str) :=
  appendOnly_bind _ _ (appendOnly_push_string_loop str) (appendOnly_push_byte 0)

/-- The `while` loop of `push_number` is append-only and fails only with `MAX_BYTES`. -/
theorem push_number_loop_appendOnly (fuel : Nat) : ∀ (n byte_count : Nat) (st : State),
    (∀ r, push_number_loop fuel n byte_count st = .ok r →
      (∃ out, r.2.bytes = st.bytes ++ out) ∧
      (st.bytes.length ≤ MAX_BYTES → r.2.bytes.length ≤ MAX_BYTES) ∧
      r.2.chains = st.chains ∧ r.2.buckets = st.buckets) ∧
    ∀ e, push_number_loop fuel n byte_count st = .error e → e = .max_bytes := by
  induction fuel with
  | zero =>
    intro n bc st
    refine ⟨fun r h => ?_, fun e h => by cases h⟩
    simp only [push_number_loop] at h
    injection h with h
    subst h
    exact ⟨⟨[], by simp⟩, fun h => h, rfl, rfl⟩
  | succ f ih =>
    intro n bc st
    by_cases h0 : n > 0
    · have hstep : push_number_loop (f + 1) n bc st
          = push_byte (n &&& 0xff) st >>= fun st1 =>
              push_number_loop f (n >>> 8) ((bc + (2 ^ 64 - 1)) % 2 ^ 64) st1 := by
        simp only [push_number_loop, h0, if_true]
      rw [hstep]
      cases hp : push_byte (n &&& 0xff) st with
      | error e1 =>
        constructor
        · intro r h; simp [bind, Except.bind] at h
        · intro e h
          simp only [bind, Except.bind] at h
          injection h with h; subst h
          exact push_byte_error _ _ _ hp
      | ok st1 =>
        obtain ⟨⟨o1, h1⟩, hb1, hc1, hk1⟩ := (appendOnly_push_byte _).1 st st1 hp
        constructor
        · intro r h
          simp only [bind, Except.bind] at h
          obtain ⟨⟨o2, h2⟩, hb2, hc2, hk2⟩ := (ih _ _ st1).1 r h
          exact ⟨⟨o1 ++ o2, by rw [h2, h1, List.append_assoc]⟩, fun hh => hb2 (hb1 hh),
            hc2.trans hc1, hk2.trans hk1⟩
        · intro e h
          simp only [bind, Except.bind] at h
          exact (ih _ _ st1).2 e h
    · have hstep : push_number_loop (f + 1) n bc st = .ok (bc, st) := by
        simp only [push_number_loop, h0, if_false]
      rw [hstep]
      constructor
      · intro r h
        injection h with h
        subst h
        exact ⟨⟨[], by simp⟩, fun h => h, rfl, rfl⟩
      · intro e h; cases h

theorem appendOnly_push_number (n byte_count : Nat) : AppendOnly (push_number n byte_count) := by
  refine ⟨fun st st' h => ?_, fun st e h => ?_⟩
  · simp only [push_number, bind, Except.bind] at h
    cases hl : push_number_loop 8 n byte_count st with
    | error e => rw [hl] at h; cases h
    | ok r =>
      rw [hl] at h
      obtain ⟨⟨o1, h1⟩, hb1, hc1, hk1⟩ := (push_number_loop_appendOnly 8 n byte_count st).1 r hl
      obtain ⟨⟨o2, h2⟩, hb2, hc2, hk2⟩ := (appendOnly_push_zeros r.1).1 r.2 st' h
      exact ⟨⟨o1 ++ o2, by rw [h2, h1, List.append_assoc]⟩, fun hh => hb2 (hb1 hh),
        hc2.trans hc1, hk2.trans hk1⟩
  · simp only [push_number, bind, Except.bind] at h
    cases hl : push_number_loop 8 n byte_count st with
    | error e1 =>
      rw [hl] at h; injection h with h; subst h
      exact (push_number_loop_appendOnly 8 n byte_count st).2 e1 hl
    | ok r => rw [hl] at h; exact (appendOnly_push_zeros r.1).2 r.2 e h

/-- Zeros that do not fit: `push_zeros` fails. -/
theorem push_zeros_overflow (count : Nat) : ∀ (st : State), 0 < count →
    MAX_BYTES < st.bytes.length + count → push_zeros count st = .error .max_bytes := by
  induction count with
  | zero => intro st h; omega
  | succ c ih =>
    intro st _ hroom
    rw [push_zeros]
    by_cases hfull : MAX_BYTES ≤ st.bytes.length
    · rw [push_byte_full 0 st hfull]; rfl
    · rw [push_byte_ok 0 st (by omega)]
      simp only [bind, Except.bind]
      apply ih
      · by_contra hc; omega
      · simp; omega

/-- A string that does not fit: `push_string` fails. -/
theorem push_string_overflow (str : List Nat) : ∀ (st : State),
    (∀ c ∈ str, c % 256 ≠ 0) → st.bytes.length ≤ MAX_BYTES →
    MAX_BYTES < st.bytes.length + (str.length + 1) →
    push_string str st = .error .max_bytes := by
  induction str with
  | nil =>
    intro st _ _ hroom
    simp only [push_string, push_string_loop, bind, Except.bind]
    exact push_byte_full 0 st (by simp at hroom; omega)
  | cons c rest ih =>
    intro st hnz hle hroom
    have hc : ¬ c % 256 = 0 := hnz c (List.mem_cons_self _ _)
    simp only [push_string, push_string_loop, hc, if_false, bind, Except.bind]
    by_cases hfull : MAX_BYTES ≤ st.bytes.length
    · rw [push_byte_full _ st hfull]
    · rw [push_byte_ok _ st (by omega)]
      have := ih { st with bytes := st.bytes ++ [c % 256] }
        (fun d hd => hnz d (List.mem_cons_of_mem _ hd)) (by simp; omega)
        (by simp at hroom ⊢; omega)
      simp only [push_string, bind, Except.bind] at this
      exact this

/-- A number whose `byte_count` bytes do not fit: `push_number` fails. -/
theorem push_number_loop_overflow (fuel : Nat) : ∀ (n byte_count : Nat) (st : State),
    n < 256 ^ fuel → n < 256 ^ byte_count → 0 < byte_count → byte_count < 2 ^ 64 →
    MAX_BYTES < st.bytes.length + byte_count →
    (push_number_loop fuel n byte_count st >>= fun r => push_zeros r.1 r.2)
      = .error .max_bytes := by
  induction fuel with
  | zero =>
    intro n bc st _ _ hpos _ hroom
    simp only [push_number_loop, bind, Except.bind]
    exact push_zeros_overflow bc st hpos hroom
  | succ f ih =>
    intro n bc st hn hbc hpos h64 hroom
    by_cases h0 : n > 0
    · simp only [push_number_loop, h0, if_true, bind, Except.bind]
      by_cases hfull : MAX_BYTES ≤ st.bytes.length
      · rw [push_byte_full _ st hfull]
      · rw [push_byte_ok _ st (by omega)]
        simp only []
        obtain ⟨c, rfl⟩ : ∃ c, bc = c + 1 := ⟨bc - 1, by omega⟩
        have hdec : (c + 1 + (2 ^ 64 - 1)) % 2 ^ 64 = c := by omega
        have hshift : n >>> 8 = n / 256 := by simp [Nat.shiftRight_eq_div_pow]
        have h1 : n / 256 < 256 ^ f := by
          rw [Nat.div_lt_iff_lt_mul (by decide)]; rw [pow_succ] at hn; exact hn
        have h2 : n / 256 < 256 ^ c := by
          rw [Nat.div_lt_iff_lt_mul (by decide)]; rw [pow_succ] at hbc; exact hbc
        rw [hdec, hshift]
        have := ih (n / 256) c { st with bytes := st.bytes ++ [n &&& 0xff] } h1 h2
          (by omega) (by omega) (by simp; omega)
        simp only [bind, Except.bind] at this
        exact this
    · simp only [push_number_loop, h0, if_false, bind, Except.bind]
      exact push_zeros_overflow bc st hpos hroom

/-- C16: the byte buffer is append-only and bounds-checked.  `push_byte` returns exactly when
`bytes_size < MAX_BYTES`, and then the new contents are the old ones followed by the byte;
otherwise it fails with the `MAX_BYTES` error.  Every `push_byte`, `push_zeros`, `push_string`
and `push_number` that returns leaves the old contents as an unchanged initial part of the new
ones and keeps `bytes_size ≤ MAX_BYTES`; one that fails, fails with the `MAX_BYTES` error; and
one whose bytes do not fit under `MAX_BYTES` fails. -/
theorem byte_buffer_append_only :
    (∀ byte st, (∃ st', push_byte byte st = .ok st') ↔ st.bytes.length < MAX_BYTES) ∧
    (∀ byte st st', push_byte byte st = .ok st' →
      st' = { st with bytes := st.bytes ++ [byte] }) ∧
    (∀ byte st, ¬ st.bytes.length < MAX_BYTES → push_byte byte st = .error .max_bytes) ∧
    (∀ f : State → Except Error State,
      ((∃ byte, f = push_byte byte) ∨ (∃ count, f = push_zeros count) ∨
        (∃ str, f = push_string str) ∨ (∃ n byte_count, f = push_number n byte_count)) →
      (∀ st st', f st = .ok st' →
        (∃ out, st'.bytes = st.bytes ++ out) ∧
        (st.bytes.length ≤ MAX_BYTES → st'.bytes.length ≤ MAX_BYTES)) ∧
      (∀ st e, f st = .error e → e = .max_bytes)) ∧
    (∀ count st, st.bytes.length ≤ MAX_BYTES → MAX_BYTES < st.bytes.length + count →
      push_zeros count st = .error .max_bytes) ∧
    (∀ str st, (∀ c ∈ str, c % 256 ≠ 0) → st.bytes.length ≤ MAX_BYTES →
      MAX_BYTES < st.bytes.length + (str.length + 1) →
      push_string str st = .error .max_bytes) ∧
    (∀ n byte_count st, n < 2 ^ 64 → n < 256 ^ byte_count → byte_count < 2 ^ 64 →
      st.bytes.length ≤ MAX_BYTES → MAX_BYTES < st.bytes.length + byte_count →
      push_number n byte_count st = .error .max_bytes) := by
  refine ⟨fun byte st => ⟨?_, fun h => ⟨_, push_byte_ok byte st h⟩⟩,
    fun byte st st' h => (push_byte_eq_ok byte st st' h).2,
    fun byte st h => push_byte_full byte st (by omega), ?_, ?_, ?_, ?_⟩
  · rintro ⟨st', h⟩
    exact (push_byte_eq_ok byte st st' h).1
  · intro f hf
    have hao : AppendOnly f := by
      rcases hf with ⟨b, rfl⟩ | ⟨c, rfl⟩ | ⟨s, rfl⟩ | ⟨n, bc, rfl⟩
      · exact appendOnly_push_byte b
      · exact appendOnly_push_zeros c
      · exact appendOnly_push_string s
      · exact appendOnly_push_number n bc
    exact ⟨fun st st' h => ⟨(hao.1 st st' h).1, (hao.1 st st' h).2.1⟩, hao.2⟩
  · intro count st hle hroom
    exact push_zeros_overflow count st (by omega) hroom
  · intro str st hnz hle hroom
    exact push_string_overflow str st hnz hle hroom
  · intro n bc st h64 hn hbc hle hroom
    unfold push_number
    exact push_number_loop_overflow 8 n bc st h64 hn (by omega) hbc hroom

/-- C16 at `push_zeros(3)`: whenever it returns, the old bytes are an initial part of the
new ones and the size stays within `MAX_BYTES`; on the empty buffer it returns `[0, 0, 0]`. -/
theorem byte_buffer_append_only_witness :
    bytes_of (push_zeros 3 initial_state) = some [0, 0, 0] ∧
    ((∀ st st', push_zeros 3 st = .ok st' →
        (∃ out, st'.bytes = st.bytes ++ out) ∧
        (st.bytes.length ≤ MAX_BYTES → st'.bytes.length ≤ MAX_BYTES)) ∧
      (∀ st e, push_zeros 3 st = .error e → e = .max_bytes)) :=
  ⟨by decide,
    byte_buffer_append_only.2.2.2.1 (push_zeros 3) (Or.inr (Or.inl ⟨3, rfl⟩))⟩

/-- Once `byte_count` is at least the number of iterations left, the `while` loop of
`push_number` takes at most that many off it. -/
theorem push_number_loop_counter (fuel : Nat) : ∀ (n byte_count : Nat) (st : State),
    fuel ≤ byte_count → byte_count < 2 ^ 64 →
    ∀ r, push_number_loop fuel n byte_count st = .ok r → byte_count - fuel ≤ r.1 := by
  induction fuel with
  | zero =>
    intro n bc st _ _ r h
    simp only [push_number_loop] at h
    injection h with h
    subst h
    simp
  | succ f ih =>
    intro n bc st hle h64 r h
    by_cases h0 : n > 0
    · simp only [push_number_loop, h0, if_true, bind, Except.bind] at h
      cases hp : push_byte (n &&& 0xff) st with
      | error e => rw [hp] at h; cases h
      | ok st1 =>
        rw [hp] at h
        have hdec : (bc + (2 ^ 64 - 1)) % 2 ^ 64 = bc - 1 := by omega
        rw [hdec] at h
        have := ih _ (bc - 1) st1 (by omega) (by omega) r h
        omega
    · simp only [push_number_loop, h0, if_false] at h
      injection h with h
      subst h
      simp

/-- When the value does not fit `byte_count` bytes, the `while` loop of `push_number`, if
it returns, leaves `byte_count` wrapped below zero: at least `2 ^ 64 - fuel`. -/
theorem push_number_loop_wraps (fuel : Nat) : ∀ (n byte_count : Nat) (st : State),
    fuel ≤ 8 → n < 256 ^ fuel → 256 ^ byte_count ≤ n →
    ∀ r, push_number_loop fuel n byte_count st = .ok r → 2 ^ 64 - fuel ≤ r.1 := by
  induction fuel with
  | zero =>
    intro n bc st _ hn hbc r _
    have : 0 < 256 ^ bc := Nat.pow_pos (by decide)
    simp at hn
    omega
  | succ f ih =>
    intro n bc st hf hn hbc r h
    have hpos : n > 0 := lt_of_lt_of_le (Nat.pow_pos (by decide)) hbc
    simp only [push_number_loop, hpos, if_true, bind, Except.bind] at h
    cases hp : push_byte (n &&& 0xff) st with
    | error e => rw [hp] at h; cases h
    | ok st1 =>
      rw [hp] at h
      have hshift : n >>> 8 = n / 256 := by simp [Nat.shiftRight_eq_div_pow]
      rw [hshift] at h
      have h1 : n / 256 < 256 ^ f := by
        rw [Nat.div_lt_iff_lt_mul (by decide)]; rw [pow_succ] at hn; exact hn
      cases bc with
      | zero =>
        have hdec : (0 + (2 ^ 64 - 1)) % 2 ^ 64 = 2 ^ 64 - 1 := by decide
        rw [hdec] at h
        have := push_number_loop_counter f (n / 256) (2 ^ 64 - 1) st1 (by omega) (by omega) r h
        omega
      | succ c =>
        have hc8 : c + 1 < 8 := by
          by_contra hc
          have h8 : (256 : Nat) ^ 8 ≤ 256 ^ (c + 1) := Nat.pow_le_pow_right (by decide) (by omega)
          have h9 : (256 : Nat) ^ (f + 1) ≤ 256 ^ 8 := Nat.pow_le_pow_right (by decide) hf
          omega
        have hdec : (c + 1 + (2 ^ 64 - 1)) % 2 ^ 64 = c := by omega
        rw [hdec] at h
        have h2 : 256 ^ c ≤ n / 256 := by
          rw [Nat.le_div_iff_mul_le (by decide)]; rw [pow_succ] at hbc; exact hbc
        have := ih (n / 256) c st1 (by omega) h1 h2 r h
        omega

/-- C18: `push_number` never silently truncates.  For every `u64` value `n` that does not fit
`byte_count` bytes (`n ≥ 256 ^ byte_count`) and every state, `push_number(n, byte_count)` does
not return: it ends in the `MAX_BYTES` error (the `byte_count` counter wraps below zero and
the padding cannot fit). -/
theorem push_number_no_truncation (n byte_count : Nat) (st : State) (h64 : n < 2 ^ 64)
    (hbig : 256 ^ byte_count ≤ n) :
    push_number n byte_count st = .error .max_bytes := by
  unfold push_number
  cases hl : push_number_loop 8 n byte_count st with
  | error e =>
    have := (push_number_loop_appendOnly 8 n byte_count st).2 e hl
    subst this
    rfl
  | ok r =>
    have hw := push_number_loop_wraps 8 n byte_count st (le_refl _) h64 hbig r hl
    simp only [bind, Except.bind]
    apply push_zeros_overflow
    · omega
    · simp only [MAX_BYTES]; omega

/-- C18 at `push_number(0x1f50, 1)` on the empty buffer: a two-byte value, one byte asked. -/
theorem push_number_no_truncation_witness :
    0x1f50 < 2 ^ 64 ∧ 256 ^ 1 ≤ 0x1f50 ∧
    push_number 0x1f50 1 initial_state = .error .max_bytes :=
  ⟨by decide, by decide, push_number_no_truncation 0x1f50 1 initial_state (by decide) (by decide)⟩

/-! ## Capacity of the chain list, bucket indices, chain entries -/

theorem push_chain_ok (chain : Nat) (st : State) (h : st.chains.length < MAX_SYMBOLS) :
    push_chain chain st = .ok { st with chains := st.chains ++ [chain] } := by
  unfold push_chain
  rw [if_neg (by omega)]

theorem push_chain_full (chain : Nat) (st : State) (h : MAX_SYMBOLS ≤ st.chains.length) :
    push_chain chain st = .error .max_symbols := by
  unfold push_chain
  rw [if_pos (by omega)]

/-- The construction loop returns when the names and the chain list have room; whatever the
buckets hold. -/
theorem push_hash_chain_loop_returns (names : List (List Nat)) (nbucket remaining : Nat) :
    ∀ (i : Nat) (st : State), i + remaining ≤ names.length →
      st.chains.length + remaining ≤ MAX_SYMBOLS →
      ∃ st', push_hash_chain_loop names nbucket remaining i st = .ok st' ∧
        st'.bytes = st.bytes ∧ st'.chains.length = st.chains.length + remaining := by
  induction remaining with
  | zero => intro i st _ _; exact ⟨st, rfl, rfl, rfl⟩
  | succ r ih =>
    intro i st hlen hcap
    have hget : names[i]? = some names[i] := List.getElem?_eq_getElem (by omega)
    obtain ⟨st', hrun, hb, hc⟩ := ih (i + 1)
      { bytes := st.bytes
        chains := st.chains ++ [st.buckets (elf_hash names[i] % nbucket)]
        buckets := Function.update st.buckets (elf_hash names[i] % nbucket)
          ((i + 1) % 2 ^ 32) }
      (by omega) (by simp; omega)
    refine ⟨st', ?_, hb, by rw [hc]; simp; omega⟩
    rw [push_hash_chain_loop]
    simp only [hget, push_chain_ok _ st (by omega), bind, Except.bind]
    exact hrun

/-- The construction loop fails with the `MAX_SYMBOLS` error when the chain list has no room
for the remaining names. -/
theorem push_hash_chain_loop_capacity (names : List (List Nat)) (nbucket remaining : Nat) :
    ∀ (i : Nat) (st : State), i + remaining ≤ names.length →
      st.chains.length ≤ MAX_SYMBOLS → MAX_SYMBOLS < st.chains.length + remaining →
      push_hash_chain_loop names nbucket remaining i st = .error .max_symbols := by
  induction remaining with
  | zero => intro i st _ h1 h2; omega
  | succ r ih =>
    intro i st hlen hle hcap
    have hget : names[i]? = some names[i] := List.getElem?_eq_getElem (by omega)
    rw [push_hash_chain_loop]
    by_cases hfull : MAX_SYMBOLS ≤ st.chains.length
    · simp only [hget, push_chain_full _ st hfull, bind, Except.bind]
    · simp only [hget, push_chain_ok _ st (by omega), bind, Except.bind]
      apply ih
      · omega
      · simp; omega
      · simp; omega

/-- The construction loop writes no bucket at or above `nbucket`. -/
theorem push_hash_chain_loop_frame (names : List (List Nat)) (nbucket : Nat)
    (hnb : 0 < nbucket) (remaining : Nat) :
    ∀ (i : Nat) (st st' : State), push_hash_chain_loop names nbucket remaining i st = .ok st' →
      ∀ j, nbucket ≤ j → st'.buckets j = st.buckets j := by
  induction remaining with
  | zero =>
    intro i st st' h j _
    simp only [push_hash_chain_loop] at h
    injection h with h
    subst h
    rfl
  | succ r ih =>
    intro i st st' h j hj
    rw [push_hash_chain_loop] at h
    cases hg : names[i]? with
    | none => simp [hg] at h
    | some name =>
      simp only [hg] at h
      cases hp : push_chain (st.buckets (elf_hash name % nbucket)) st with
      | error e => simp [hp, bind, Except.bind] at h
      | ok st1 =>
        simp only [hp, bind, Except.bind] at h
        have h1 := ih _ _ _ h j hj
        have hlt : elf_hash name % nbucket < nbucket := Nat.mod_lt _ hnb
        have hst1 : st1.buckets = st.buckets := by
          unfold push_chain at hp
          split_ifs at hp
          injection hp with hp
          subst hp
          rfl
        rw [h1]
        simp only
        rw [Function.update_noteq (by omega), hst1]

theorem appendOnly_push_hash_buckets_loop (remaining : Nat) :
    ∀ i, AppendOnly (push_hash_buckets_loop remaining i) := by
  induction remaining with
  | zero => intro i; exact appendOnly_ok
  | succ r ih =>
    intro i
    refine ⟨fun st st' h => ?_, fun st e h => ?_⟩
    · rw [push_hash_buckets_loop] at h
      exact (appendOnly_bind _ _ (appendOnly_push_number (st.buckets i) 4) (ih (i + 1))).1 st st' h
    · rw [push_hash_buckets_loop] at h
      exact (appendOnly_bind _ _ (appendOnly_push_number (st.buckets i) 4) (ih (i + 1))).2 st e h

theorem appendOnly_push_hash_chains_loop (remaining : Nat) :
    ∀ i, AppendOnly (push_hash_chains_loop remaining i) := by
  induction remaining with
  | zero => intro i; exact appendOnly_ok
  | succ r ih =>
    intro i
    refine ⟨fun st st' h => ?_, fun st e h => ?_⟩
    · rw [push_hash_chains_loop] at h
      exact (appendOnly_bind _ _ (appendOnly_push_number (st.chains.getD i 0) 4)
        (ih (i + 1))).1 st st' h
    · rw [push_hash_chains_loop] at h
      exact (appendOnly_bind _ _ (appendOnly_push_number (st.chains.getD i 0) 4)
        (ih (i + 1))).2 st e h

/-- What follows the construction loop in `push_hash` fails only with `MAX_BYTES`. -/
theorem push_hash_emit_error (nbucket : Nat) (st : State) (e : Error)
    (h : (push_hash_buckets_loop nbucket 0 st >>= fun st4 =>
      push_number 0 4 st4 >>= fun st5 =>
      push_hash_chains_loop st5.chains.length 0 st5) = .error e) : e = .max_bytes := by
  simp only [bind, Except.bind] at h
  cases h4 : push_hash_buckets_loop nbucket 0 st with
  | error e1 =>
    rw [h4] at h; injection h with h; subst h
    exact (appendOnly_push_hash_buckets_loop nbucket 0).2 st e1 h4
  | ok st4 =>
    rw [h4] at h
    simp only at h
    cases h5 : push_number 0 4 st4 with
    | error e1 =>
      rw [h5] at h; injection h with h; subst h
      exact (appendOnly_push_number 0 4).2 st4 e1 h5
    | ok st5 =>
      rw [h5] at h
      exact (appendOnly_push_hash_chains_loop _ 0).2 st5 e h

/-- C12: capacity of the chain list.  With `chains_size` within the array, `push_chain`
fails with the `MAX_SYMBOLS` error exactly when the list already holds `MAX_SYMBOLS` (420420)
entries and otherwise appends the value.  So the construction loop of `push_hash`, started
from an empty chain list, ends in that error if and only if the symbol count exceeds
`MAX_SYMBOLS`; and so does the whole body of `push_hash` when the buffer has room for the
two header words. -/
theorem push_chain_capacity :
    MAX_SYMBOLS = 420420 ∧
    (∀ chain st, st.chains.length ≤ MAX_SYMBOLS →
      (push_chain chain st = .error .max_symbols ↔ st.chains.length = MAX_SYMBOLS) ∧
      (st.chains.length < MAX_SYMBOLS →
        push_chain chain st = .ok { st with chains := st.chains ++ [chain] })) ∧
    (∀ names nbucket st, st.chains = [] →
      (push_hash_chain_loop names nbucket names.length 0 st = .error .max_symbols
        ↔ MAX_SYMBOLS < names.length)) ∧
    (∀ k names st, st.chains = [] → k ≤ names.length → st.bytes.length + 8 ≤ MAX_BYTES →
      (push_hash_body k names st = .error .max_symbols ↔ MAX_SYMBOLS < k)) := by
  refine ⟨rfl, ?_, ?_, ?_⟩
  · intro chain st hle
    refine ⟨⟨fun h => ?_, fun h => push_chain_full chain st (by omega)⟩,
      fun h => push_chain_ok chain st h⟩
    by_contra hne
    rw [push_chain_ok chain st (by omega)] at h
    cases h
  · intro names nbucket st hch
    constructor
    · intro h
      by_contra hle
      obtain ⟨st', hrun, -, -⟩ := push_hash_chain_loop_returns names nbucket names.length 0 st
        (by omega) (by rw [hch]; simp; omega)
      rw [hrun] at h
      cases h
    · intro h
      exact push_hash_chain_loop_capacity names nbucket names.length 0 st (by omega)
        (by rw [hch]; simp) (by rw [hch]; simpa using h)
  · intro k names st hch hk hroom
    have hnb := get_nbucket_le_max k
    have h1 := push_number_ok (get_nbucket k) 4 st (by omega) (by decide) (by omega)
    have h2 := push_number_ok ((1 + k) % 2 ^ 32) 4
      { st with bytes := st.bytes ++ le_bytes (get_nbucket k) 4 }
      (by omega) (by decide) (by simp [le_bytes_length]; omega)
    constructor
    · intro h
      by_contra hle
      obtain ⟨st3, hrun, -, -⟩ := push_hash_chain_loop_returns names (get_nbucket k) k 0
        (clear_buckets (get_nbucket k)
          { st with bytes := st.bytes ++ le_bytes (get_nbucket k) 4
                                ++ le_bytes ((1 + k) % 2 ^ 32) 4 })
        (by omega) (by simp [clear_buckets, hch]; omega)
      unfold push_hash_body at h
      simp only [h1, bind, Except.bind, h2, hrun] at h
      have := push_hash_emit_error (get_nbucket k) st3 _ h
      cases this
    · intro h
      have hfail := push_hash_chain_loop_capacity names (get_nbucket k) k 0
        (clear_buckets (get_nbucket k)
          { st with bytes := st.bytes ++ le_bytes (get_nbucket k) 4
                                ++ le_bytes ((1 + k) % 2 ^ 32) 4 })
        (by omega) (by simp [clear_buckets, hch]) (by simp [clear_buckets, hch]; omega)
      unfold push_hash_body
      simp only [h1, bind, Except.bind, h2, hfail]

/-- C12 at the names of `generate_simple_so`: from the empty chain list the construction
loop does not end in the capacity error, 16 being within `MAX_SYMBOLS`. -/
theorem push_chain_capacity_witness :
    initial_state.chains = [] ∧ ¬ MAX_SYMBOLS < simple_symbols.length ∧
    (push_hash_chain_loop simple_symbols 3 simple_symbols.length 0 initial_state
        = .error .max_symbols ↔ MAX_SYMBOLS < simple_symbols.length) :=
  ⟨rfl, by decide, push_chain_capacity.2.2.1 simple_symbols 3 initial_state rfl⟩

/-- C17: bucket indexing in `push_hash` is well-defined.  For every symbol count and name,
`nbucket = get_nbucket(symbol_count)` is not zero, `bucket_index = elf_hash(name) % nbucket`
is below `nbucket`, and `nbucket ≤ MAX_BUCKETS`, so every index used on `buckets` (in the
construction loop and in the loop that emits `buckets[0 .. nbucket - 1]`) is below
`MAX_BUCKETS`; and the `memset` and the construction loop leave every entry at or above
`nbucket` as it was. -/
theorem bucket_index_in_bounds (symbol_count : Nat) (name : List Nat) :
    get_nbucket symbol_count ≠ 0 ∧
    elf_hash name % get_nbucket symbol_count < get_nbucket symbol_count ∧
    get_nbucket symbol_count ≤ MAX_BUCKETS ∧
    elf_hash name % get_nbucket symbol_count < MAX_BUCKETS ∧
    (∀ i, i < get_nbucket symbol_count → i < MAX_BUCKETS) ∧
    ∀ (names : List (List Nat)) (st st' : State),
      push_hash_chain_loop names (get_nbucket symbol_count) symbol_count 0
        (clear_buckets (get_nbucket symbol_count) st) = .ok st' →
      ∀ j, get_nbucket symbol_count ≤ j → st'.buckets j = st.buckets j := by
  have hpos := get_nbucket_pos symbol_count
  have hmax : get_nbucket symbol_count ≤ MAX_BUCKETS := get_nbucket_le_max symbol_count
  have hlt : elf_hash name % get_nbucket symbol_count < get_nbucket symbol_count :=
    Nat.mod_lt _ hpos
  refine ⟨by omega, hlt, hmax, by omega, fun i hi => by omega, ?_⟩
  intro names st st' h j hj
  rw [push_hash_chain_loop_frame names _ hpos symbol_count 0 _ st' h j hj]
  simp [clear_buckets]
  omega

/-- In a chain table whose every entry is below its own index, the walk from any index of
the table reaches 0 within `index + 1` steps, visiting at most `index` indices, in
strictly decreasing order. -/
theorem chain_walk_terminates (chain : List Nat)
    (hdec : ∀ i c, chain[i]? = some c → i ≠ 0 → c < i) :
    ∀ index, index < chain.length →
      ∃ visited, chain_walk chain (index + 1) index = some visited ∧
        visited.length ≤ index ∧ visited.Pairwise (· > ·) ∧ ∀ x ∈ visited, x ≤ index := by
  intro index
  induction index using Nat.strong_induction_on with
  | _ index ih =>
    intro hlt
    by_cases h0 : index = 0
    · subst h0
      exact ⟨[], by simp [chain_walk], by simp, by simp, by simp⟩
    · have hget : chain[index]? = some chain[index] := List.getElem?_eq_getElem hlt
      have hc := hdec index _ hget h0
      obtain ⟨v, hv, hvlen, hvpw, hvle⟩ := ih chain[index] hc (by omega)
      have hext := chain_walk_extend chain [] (index - (chain[index] + 1)) _ _ _ hv
      rw [List.append_nil, show chain[index] + 1 + (index - (chain[index] + 1)) = index by omega]
        at hext
      refine ⟨index :: v, ?_, by simp; omega, ?_, ?_⟩
      · rw [chain_walk, if_neg h0, hget]
        simp only [hext, Option.map_some']
      · rw [List.pairwise_cons]
        exact ⟨fun x hx => by have := hvle x hx; omega, hvpw⟩
      · intro x hx
        rcases List.mem_cons.1 hx with rfl | hx
        · exact le_refl _
        · have := hvle x hx; omega

/-- C14: chain traversal terminates at index 0.  For at most `MAX_SYMBOLS` names inserted from
an empty chain list, the construction loop returns; in the emitted chain table entry 0 is 0
and every entry `i` with `1 ≤ i ≤ symbol count` is strictly below `i`; so the walk from any
symbol index `i` reaches 0 within `i + 1` steps, having visited at most `i` indices in
strictly decreasing order (no index twice). -/
theorem chain_entries_decrease (names : List (List Nat)) (st : State)
    (hlen : names.length ≤ MAX_SYMBOLS) (hch : st.chains = []) :
    ∃ st', push_hash_chain_loop names (get_nbucket names.length) names.length 0
        (clear_buckets (get_nbucket names.length) st) = .ok st' ∧
      (chain_array st').length = names.length + 1 ∧
      (chain_array st')[0]? = some 0 ∧
      (∀ i, 1 ≤ i → i ≤ names.length → ∃ c, (chain_array st')[i]? = some c ∧ c < i) ∧
      ∀ i, i ≤ names.length →
        ∃ visited, chain_walk (chain_array st') (i + 1) i = some visited ∧
          visited.length ≤ i ∧ visited.Pairwise (· > ·) := by
  obtain ⟨st', hrun, -, hchains, -, -⟩ :=
    push_hash_chain_loop_ok names (get_nbucket names.length) (get_nbucket_pos _) []
      names.length 0 (clear_buckets (get_nbucket names.length) st)
      (by omega) (by simp only [MAX_SYMBOLS] at hlen; omega) (by simpa using hlen)
      (by simp [clear_buckets, hch])
      (by intro c hc; simp [clear_buckets, hc, bucket_head, bucket_members])
  simp only [Nat.zero_add, List.nil_append] at hchains
  have hlen' : (chain_array st').length = names.length + 1 := by
    simp [chain_array, hchains]
  have hentry : ∀ i c, (chain_array st')[i]? = some c → i ≠ 0 → c < i := by
    intro i c hic hi
    obtain ⟨j, rfl⟩ : ∃ j, i = j + 1 := ⟨i - 1, by omega⟩
    simp only [chain_array, hchains, List.getElem?_cons_succ, List.getElem?_map] at hic
    cases hj : (List.range names.length)[j]? with
    | none => simp [hj] at hic
    | some k =>
      rw [hj] at hic
      simp only [Option.map_some', Option.some.injEq] at hic
      have hk : k = j := by
        have := List.getElem?_eq_some_iff.1 hj
        obtain ⟨h1, h2⟩ := this
        simpa using h2.symm
      subst hk
      have := chain_value_le names (get_nbucket names.length) k
      omega
  refine ⟨st', hrun, hlen', by simp [chain_array], ?_, ?_⟩
  · intro i h1 h2
    have hlt : i < (chain_array st').length := by omega
    exact ⟨_, List.getElem?_eq_getElem hlt,
      hentry i _ (List.getElem?_eq_getElem hlt) (by omega)⟩
  · intro i hi
    obtain ⟨v, hv, hvlen, hvpw, -⟩ :=
      chain_walk_terminates (chain_array st') hentry i (by omega)
    exact ⟨v, hv, hvlen, hvpw⟩

/-- C14 at the sixteen names of `generate_simple_so`. -/
theorem chain_entries_decrease_witness :
    simple_symbols.length ≤ MAX_SYMBOLS ∧ initial_state.chains = [] ∧
    ∃ st', push_hash_chain_loop simple_symbols (get_nbucket simple_symbols.length)
        simple_symbols.length 0
        (clear_buckets (get_nbucket simple_symbols.length) initial_state) = .ok st' ∧
      (chain_array st').length = simple_symbols.length + 1 ∧
      (chain_array st')[0]? = some 0 ∧
      (∀ i, 1 ≤ i → i ≤ simple_symbols.length →
        ∃ c, (chain_array st')[i]? = some c ∧ c < i) ∧
      ∀ i, i ≤ simple_symbols.length →
        ∃ visited, chain_walk (chain_array st') (i + 1) i = some visited ∧
          visited.length ≤ i ∧ visited.Pairwise (· > ·) :=
  ⟨by decide, rfl, chain_entries_decrease simple_symbols initial_state (by decide) rfl⟩

/-! ## Short names -/

theorem and_0xf0_of_lt (x : Nat) (h : x < 16) : x &&& 0xf0 = 0 := by
  interval_cases x <;> rfl

theorem hash_polynomial_le (name : List Nat) (hname : ∀ c ∈ name, 0 < c ∧ c < 256) :
    hash_polynomial name + 17 ≤ 17 * 16 ^ name.length := by
  induction name with
  | nil => simp [hash_polynomial]
  | cons c rest ih =>
    have hc := hname c (List.mem_cons_self _ _)
    have := ih (fun d hd => hname d (List.mem_cons_of_mem _ hd))
    have hmul : c * 16 ^ rest.length ≤ 255 * 16 ^ rest.length :=
      Nat.mul_le_mul_right _ (by omega)
    simp only [hash_polynomial, List.length_cons, pow_succ]
    omega

/-- While the value stays below `2 ^ 28` the loop of `elf_hash` computes the polynomial. -/
theorem elf_hash_loop_polynomial (name : List Nat) :
    ∀ h, (∀ c ∈ name, 0 < c ∧ c < 256) →
      h * 16 ^ name.length + 17 * 16 ^ name.length < 2 ^ 28 + 17 →
      elf_hash_loop name h = h * 16 ^ name.length + hash_polynomial name := by
  induction name with
  | nil => intro h _ _; simp [elf_hash_loop, hash_polynomial]
  | cons c rest ih =>
    intro h hname hbound
    have hc := hname c (List.mem_cons_self _ _)
    have hrest : ∀ d ∈ rest, 0 < d ∧ d < 256 := fun d hd => hname d (List.mem_cons_of_mem _ hd)
    have hp : 0 < 16 ^ rest.length := Nat.pow_pos (by decide)
    have hc0 : ¬ c % 256 = 0 := by omega
    have hcm : c % 256 = c := by omega
    simp only [List.length_cons, pow_succ] at hbound
    have hq : h ≤ h * 16 ^ rest.length := Nat.le_mul_of_pos_right _ hp
    have hr : c * 16 ^ rest.length ≤ 255 * 16 ^ rest.length :=
      Nat.mul_le_mul_right _ (by omega)
    have hmul : h * (16 ^ rest.length * 16) = 16 * (h * 16 ^ rest.length) := by ring
    rw [hmul] at hbound
    have h1 : ((h <<< 4) % 2 ^ 32 + c % 256) % 2 ^ 32 = 16 * h + c := by
      simp only [Nat.shiftLeft_eq, hcm]
      omega
    have h1lt : 16 * h + c < 2 ^ 28 := by omega
    have h2 : (16 * h + c) ^^^ (((16 * h + c) >>> 24) &&& 0xf0) = 16 * h + c := by
      rw [and_0xf0_of_lt _ (by rw [Nat.shiftRight_eq_div_pow]; omega)]
      simp
    simp only [elf_hash_loop, hc0, if_false, h1, h2]
    have hexp : (16 * h + c) * 16 ^ rest.length
        = 16 * (h * 16 ^ rest.length) + c * 16 ^ rest.length := by ring
    rw [ih (16 * h + c) hrest (by rw [hexp]; omega), hexp]
    simp only [hash_polynomial, List.length_cons, pow_succ, hmul]
    omega

/-- C19: for every name of at most 5 non-zero bytes no folding occurs: the loop of `elf_hash`
ends with the base-16 polynomial of the bytes, which is below `2 ^ 28`, and `elf_hash` returns
it; the hash of the empty name is 0 and the hash of a one-byte name is the byte.  The bound 5
is tight: the 6-byte name of `0xff` bytes has a hash other than its polynomial. -/
theorem elf_hash_short_names :
    (∀ name : List Nat, name.length ≤ 5 → (∀ c ∈ name, 0 < c ∧ c < 256) →
      elf_hash_loop name 0 = hash_polynomial name ∧ hash_polynomial name < 2 ^ 28 ∧
      elf_hash name = hash_polynomial name) ∧
    elf_hash [] = 0 ∧
    (∀ b, 0 < b → b < 256 → elf_hash [b] = b) ∧
    ∃ name : List Nat, name.length = 6 ∧ (∀ c ∈ name, 0 < c ∧ c < 256) ∧
      elf_hash name ≠ hash_polynomial name := by
  have hshort : ∀ name : List Nat, name.length ≤ 5 → (∀ c ∈ name, 0 < c ∧ c < 256) →
      elf_hash_loop name 0 = hash_polynomial name ∧ hash_polynomial name < 2 ^ 28 ∧
      elf_hash name = hash_polynomial name := by
    intro name hlen hname
    have hpow : 16 ^ name.length ≤ 16 ^ 5 := Nat.pow_le_pow_right (by decide) hlen
    have hle := hash_polynomial_le name hname
    have hloop := elf_hash_loop_polynomial name 0 hname (by omega)
    simp only [Nat.zero_mul, Nat.zero_add] at hloop
    have hlt : hash_polynomial name < 2 ^ 28 := by omega
    refine ⟨hloop, hlt, ?_⟩
    rw [elf_hash, hloop, and_0x0fffffff, Nat.mod_eq_of_lt hlt]
  refine ⟨hshort, by decide, ?_, ⟨[255, 255, 255, 255, 255, 255], by decide, by decide, by decide⟩⟩
  intro b h0 h256
  have := (hshort [b] (by simp) (by simpa using ⟨h0, h256⟩)).2.2
  simpa [hash_polynomial] using this

/-- C19 at the three-byte name `"foo"`: its hash is `102 * 256 + 111 * 16 + 111`. -/
theorem elf_hash_short_names_witness :
    [102, 111, 111].length ≤ 5 ∧ (∀ c ∈ [102, 111, 111], 0 < c ∧ c < 256) ∧
    elf_hash [102, 111, 111] = 27999 ∧
    (elf_hash_loop [102, 111, 111] 0 = hash_polynomial [102, 111, 111] ∧
      hash_polynomial [102, 111, 111] < 2 ^ 28 ∧
      elf_hash [102, 111, 111] = hash_polynomial [102, 111, 111]) :=
  ⟨by decide, by decide, by decide,
    elf_hash_short_names.1 [102, 111, 111] (by decide) (by decide)⟩

/-! ## The image of `generate_simple_so` -/

theorem emits_push_byte (byte : Nat) : Emits (push_byte byte) [byte] := by
  intro st h
  exact push_byte_ok byte st (by simp at h; omega)

theorem emits_push_zeros (count : Nat) : Emits (push_zeros count) (List.replicate count 0) := by
  intro st h
  exact push_zeros_ok count st (by simpa using h)

theorem emits_push_number (n byte_count : Nat) (hn : n < 256 ^ byte_count)
    (hbc : byte_count ≤ 8) : Emits (push_number n byte_count) (le_bytes n byte_count) := by
  intro st h
  exact push_number_ok n byte_count st hn hbc (by simpa [le_bytes_length] using h)

theorem emits_kleisli (f g : State → Except Error State) (a b : List Nat) (hf : Emits f a)
    (hg : Emits g b) : Emits (f >=> g) (a ++ b) := by
  intro st h
  simp only [List.length_append] at h
  show f st >>= g = _
  rw [hf st (by omega)]
  simp only [bind, Except.bind]
  rw [hg _ (by simp; omega)]
  simp

theorem emits_push_string_loop (str : List Nat) (hnz : ∀ c ∈ str, c % 256 ≠ 0) :
    Emits (push_string_loop str) (str.map (· % 256)) := by
  induction str with
  | nil => intro st _; simp [push_string_loop]
  | cons c rest ih =>
    have hc : ¬ c % 256 = 0 := hnz c (List.mem_cons_self _ _)
    have hrest := ih (fun d hd => hnz d (List.mem_cons_of_mem _ hd))
    intro st h
    simp only [List.map_cons, List.length_cons, List.length_map] at h
    simp only [push_string_loop, hc, if_false]
    rw [push_byte_ok _ st (by omega)]
    simp only [bind, Except.bind]
    rw [hrest _ (by simp; omega)]
    simp

theorem emits_push_string (str : List Nat) (hnz : ∀ c ∈ str, c % 256 ≠ 0) :
    Emits (push_string str) (str.map (· % 256) ++ [0]) :=
  emits_kleisli _ _ _ _ (emits_push_string_loop str hnz) (emits_push_byte 0)

theorem emits_push_symbol (name value size info other shndx : Nat) (h1 : name < 256 ^ 4)
    (h2 : value < 256 ^ 4) (h3 : size < 256 ^ 4) (h4 : info < 256 ^ 4) (h5 : other < 256 ^ 4)
    (h6 : shndx < 256 ^ 4) :
    Emits (push_symbol name value size info other shndx)
      (le_bytes name 4 ++ (le_bytes value 4 ++ (le_bytes size 4 ++ (le_bytes info 4 ++
        (le_bytes other 4 ++ le_bytes shndx 4))))) := by
  unfold push_symbol
  exact emits_kleisli _ _ _ _ (emits_push_number _ 4 h1 (by decide))
    (emits_kleisli _ _ _ _ (emits_push_number _ 4 h2 (by decide))
    (emits_kleisli _ _ _ _ (emits_push_number _ 4 h3 (by decide))
    (emits_kleisli _ _ _ _ (emits_push_number _ 4 h4 (by decide))
    (emits_kleisli _ _ _ _ (emits_push_number _ 4 h5 (by decide))
    (emits_push_number _ 4 h6 (by decide))))))

theorem emits_push_dynamic_entry (tag value : Nat) (h1 : tag < 256 ^ 8) (h2 : value < 256 ^ 8) :
    Emits (push_dynamic_entry tag value) (le_bytes tag 8 ++ le_bytes value 8) := by
  unfold push_dynamic_entry
  exact emits_kleisli _ _ _ _ (emits_push_number _ 8 h1 (by decide))
    (emits_push_number _ 8 h2 (by decide))

theorem emits_push_section (name_offset type flags address offset size link info alignment
    entry_size : Nat) (h1 : name_offset < 256 ^ 4) (h2 : type < 256 ^ 4) (h3 : flags < 256 ^ 8)
    (h4 : address < 256 ^ 8) (h5 : offset < 256 ^ 8) (h6 : size < 256 ^ 8) (h7 : link < 256 ^ 4)
    (h8 : info < 256 ^ 4) (h9 : alignment < 256 ^ 8) (h10 : entry_size < 256 ^ 8) :
    Emits (push_section name_offset type flags address offset size link info alignment
        entry_size)
      (le_bytes name_offset 4 ++ (le_bytes type 4 ++ (le_bytes flags 8 ++ (le_bytes address 8 ++
        (le_bytes offset 8 ++ (le_bytes size 8 ++ (le_bytes link 4 ++ (le_bytes info 4 ++
        (le_bytes alignment 8 ++ le_bytes entry_size 8))))))))) := by
  unfold push_section
  exact emits_kleisli _ _ _ _ (emits_push_number _ 4 h1 (by decide))
    (emits_kleisli _ _ _ _ (emits_push_number _ 4 h2 (by decide))
    (emits_kleisli _ _ _ _ (emits_push_number _ 8 h3 (by decide))
    (emits_kleisli _ _ _ _ (emits_push_number _ 8 h4 (by decide))
    (emits_kleisli _ _ _ _ (emits_push_number _ 8 h5 (by decide))
    (emits_kleisli _ _ _ _ (emits_push_number _ 8 h6 (by decide))
    (emits_kleisli _ _ _ _ (emits_push_number _ 4 h7 (by decide))
    (emits_kleisli _ _ _ _ (emits_push_number _ 4 h8 (by decide))
    (emits_kleisli _ _ _ _ (emits_push_number _ 8 h9 (by decide))
    (emits_push_number _ 8 h10 (by decide))))))))))

theorem emits_push_program_header (type flags offset virtual_address physical_address
    file_size mem_size alignment : Nat) (h1 : type < 256 ^ 4) (h2 : flags < 256 ^ 4)
    (h3 : offset < 256 ^ 8) (h4 : virtual_address < 256 ^ 8) (h5 : physical_address < 256 ^ 8)
    (h6 : file_size < 256 ^ 8) (h7 : mem_size < 256 ^ 8) (h8 : alignment < 256 ^ 8) :
    Emits (push_program_header type flags offset virtual_address physical_address file_size
        mem_size alignment)
      (le_bytes type 4 ++ (le_bytes flags 4 ++ (le_bytes offset 8 ++
        (le_bytes virtual_address 8 ++ (le_bytes physical_address 8 ++
        (le_bytes file_size 8 ++ (le_bytes mem_size 8 ++ le_bytes alignment 8))))))) := by
  unfold push_program_header
  exact emits_kleisli _ _ _ _ (emits_push_number _ 4 h1 (by decide))
    (emits_kleisli _ _ _ _ (emits_push_number _ 4 h2 (by decide))
    (emits_kleisli _ _ _ _ (emits_push_number _ 8 h3 (by decide))
    (emits_kleisli _ _ _ _ (emits_push_number _ 8 h4 (by decide))
    (emits_kleisli _ _ _ _ (emits_push_number _ 8 h5 (by decide))
    (emits_kleisli _ _ _ _ (emits_push_number _ 8 h6 (by decide))
    (emits_kleisli _ _ _ _ (emits_push_number _ 8 h7 (by decide))
    (emits_push_number _ 8 h8 (by decide))))))))

/-- The ELF header: 64 bytes, of which bytes `0x28 .. 0x2f` (`e_shoff`) hold `0x20e0`. -/
theorem emits_push_elf_header :
    ∃ out, Emits push_elf_header out ∧ out.length = 0x40 ∧
      le_value ((out.drop 0x28).take 8) = 0x20e0 := by
  apply Exists.intro
  refine ⟨?emit, ?len, ?shoff⟩
  case emit =>
    unfold push_elf_header
    repeat' first
      | exact emits_push_byte _
      | exact emits_push_zeros _
      | apply emits_kleisli
  case len => rfl
  case shoff => rfl

/-- The ELF header and the four program headers: `0x120` bytes. -/
theorem emits_generate_simple_so_headers :
    ∃ out, Emits generate_simple_so_headers out ∧ out.length = 0x120 ∧
      le_value ((out.drop 0x28).take 8) = 0x20e0 := by
  obtain ⟨hdr, hemit, hlen, hshoff⟩ := emits_push_elf_header
  apply Exists.intro
  refine ⟨?emit, ?len, ?shoff⟩
  case emit =>
    unfold generate_simple_so_headers
    apply emits_kleisli _ _ _ _ hemit
    repeat' first
      | exact emits_push_program_header _ _ _ _ _ _ _ _ (by decide) (by decide) (by decide)
          (by decide) (by decide) (by decide) (by decide) (by decide)
      | apply emits_kleisli
  case len => simp only [List.length_append, le_bytes_length, hlen]
  case shoff =>
    rw [List.drop_append_of_le_length (by omega), List.take_append_of_le_length (by simp; omega)]
    exact hshoff

theorem emits_push_dynsym : ∃ out, Emits push_dynsym out ∧ out.length = 0x30 := by
  apply Exists.intro
  refine ⟨?emit, ?len⟩
  case emit =>
    unfold push_dynsym
    repeat' first
      | exact emits_push_symbol _ _ _ _ _ _ (by decide) (by decide) (by decide) (by decide)
          (by decide) (by decide)
      | apply emits_kleisli
  case len => rfl

theorem emits_push_dynstr : ∃ out, Emits push_dynstr out ∧ out.length = 5 := by
  apply Exists.intro
  refine ⟨?emit, ?len⟩
  case emit =>
    unfold push_dynstr
    repeat' first
      | exact emits_push_byte _
      | exact emits_push_string _ (by decide)
      | apply emits_kleisli
  case len => rfl

theorem emits_push_dynamic : ∃ out, Emits push_dynamic out ∧ out.length = 0xb0 := by
  apply Exists.intro
  refine ⟨?emit, ?len⟩
  case emit =>
    unfold push_dynamic
    repeat' first
      | exact emits_push_dynamic_entry _ _ (by decide) (by decide)
      | apply emits_kleisli
  case len => rfl

theorem emits_push_data : ∃ out, Emits push_data out ∧ out.length = 8 := by
  apply Exists.intro
  refine ⟨?emit, ?len⟩
  case emit =>
    unfold push_data
    repeat' first
      | exact emits_push_zeros _
      | exact emits_push_string _ (by decide)
      | apply emits_kleisli
  case len => rfl

theorem emits_push_symtab : ∃ out, Emits push_symtab out ∧ out.length = 0x78 := by
  apply Exists.intro
  refine ⟨?emit, ?len⟩
  case emit =>
    unfold push_symtab
    repeat' first
      | exact emits_push_symbol _ _ _ _ _ _ (by decide) (by decide) (by decide) (by decide)
          (by decide) (by decide)
      | apply emits_kleisli
  case len => rfl

theorem emits_push_strtab : ∃ out, Emits push_strtab out ∧ out.length = 0x14 := by
  apply Exists.intro
  refine ⟨?emit, ?len⟩
  case emit =>
    unfold push_strtab
    repeat' first
      | exact emits_push_byte _
      | exact emits_push_string _ (by decide)
      | apply emits_kleisli
  case len => rfl

theorem emits_push_shstrtab : ∃ out, Emits push_shstrtab out ∧ out.length = 0x4c := by
  apply Exists.intro
  refine ⟨?emit, ?len⟩
  case emit =>
    unfold push_shstrtab
    repeat' first
      | exact emits_push_byte _
      | exact emits_push_zeros _
      | exact emits_push_string _ (by decide)
      | apply emits_kleisli
  case len => rfl

/-- The section header table: `0x280` bytes; the header of `.hash` follows the null section,
and its address, offset and size fields hold `0x120`, `0x120` and `0x14`. -/
theorem emits_push_section_headers :
    ∃ out, Emits push_section_headers out ∧ out.length = 0x280 ∧
      le_value ((out.drop 0x50).take 8) = 0x120 ∧
      le_value ((out.drop 0x58).take 8) = 0x120 ∧
      le_value ((out.drop 0x60).take 8) = 0x14 := by
  apply Exists.intro
  refine ⟨?emit, ?len, ?addr, ?off, ?size⟩
  case emit =>
    unfold push_section_headers
    repeat' first
      | exact emits_push_zeros _
      | exact emits_push_section _ _ _ _ _ _ _ _ _ _ (by decide) (by decide) (by decide)
          (by decide) (by decide) (by decide) (by decide) (by decide) (by decide) (by decide)
      | apply emits_kleisli
  case len => simp only [List.length_append, le_bytes_length, List.length_replicate]
  case addr => rfl
  case off => rfl
  case size => rfl

/-- What `generate_simple_so` pushes between the hash table and the section headers:
`0x1fa8` bytes. -/
theorem emits_generate_simple_so_sections :
    ∃ out, Emits generate_simple_so_sections out ∧ out.length = 0x1fa8 := by
  obtain ⟨o1, e1, l1⟩ := emits_push_dynsym
  obtain ⟨o2, e2, l2⟩ := emits_push_dynstr
  obtain ⟨o5, e5, l5⟩ := emits_push_dynamic
  obtain ⟨o6, e6, l6⟩ := emits_push_data
  obtain ⟨o7, e7, l7⟩ := emits_push_symtab
  obtain ⟨o8, e8, l8⟩ := emits_push_strtab
  obtain ⟨o9, e9, l9⟩ := emits_push_shstrtab
  refine ⟨o1 ++ (o2 ++ (List.replicate 3 0 ++ (List.replicate 0x1de0 0 ++ (o5 ++ (o6 ++
    (o7 ++ (o8 ++ o9))))))), ?_, ?_⟩
  · unfold generate_simple_so_sections
    exact emits_kleisli _ _ _ _ e1 (emits_kleisli _ _ _ _ e2
      (emits_kleisli _ _ _ _ (emits_push_zeros 3) (emits_kleisli _ _ _ _ (emits_push_zeros 0x1de0)
      (emits_kleisli _ _ _ _ e5 (emits_kleisli _ _ _ _ e6 (emits_kleisli _ _ _ _ e7
      (emits_kleisli _ _ _ _ e8 e9)))))))
  · simp only [List.length_append, List.length_replicate, l1, l2, l5, l6, l7, l8, l9]

/-- The run of `push_hash` on the names of `generate_simple_so` from an empty chain list: it
appends the 22 words of the table, `0x58` bytes. -/
theorem push_hash_simple_symbols_ok (st : State) (hch : st.chains = [])
    (hroom : st.bytes.length + 0x58 ≤ MAX_BYTES) :
    ∃ st', push_hash simple_symbols st = .ok st' ∧
      st'.bytes = st.bytes ++ le_words
        [3, 17, 11, 16, 15, 0, 0, 0, 2, 1, 0, 3, 5, 7, 4, 8, 10, 6, 9, 12, 13, 14] := by
  have hnb : get_nbucket 16 = 3 := by decide
  obtain ⟨st', hrun, hbytes, -, -⟩ :=
    push_hash_body_ok 16 simple_symbols st (by decide) (by rw [hch]; decide)
      (by rw [hch]; simp) (by rw [hch, hnb]; simp only [List.length_nil]; omega)
  have hheads : (List.range 3).map (fun b => bucket_head simple_symbols 3 b 16) = [11, 16, 15] := by
    decide
  have hvalues : (List.range 16).map (chain_value simple_symbols 3)
      = [0, 0, 2, 1, 0, 3, 5, 7, 4, 8, 10, 6, 9, 12, 13, 14] := by
    decide
  rw [hnb, hch, hheads, hvalues] at hbytes
  exact ⟨st', hrun, hbytes⟩

theorem kleisli_ok (f g : State → Except Error State) (st st1 : State) (h : f st = .ok st1) :
    (f >=> g) st = g st1 := by
  show f st >>= g = g st1
  rw [h]
  rfl

/-- The run of `generate_simple_so`, stage by stage: the headers (`hdr`), the hash table,
the sections and the section header table (`shdrs`), with the size of each part, the value
of the `e_shoff` field of the ELF header and the address, offset and size fields of the
`.hash` section header. -/
theorem generate_simple_so_trace (st : State) :
    ∃ (hdr sections shdrs : List Nat) (s1 s2 s3 s4 : State),
      generate_simple_so_headers (reset st) = .ok s1 ∧ s1.bytes = hdr ∧
      push_hash simple_symbols s1 = .ok s2 ∧
      s2.bytes = hdr ++ le_words
        [3, 17, 11, 16, 15, 0, 0, 0, 2, 1, 0, 3, 5, 7, 4, 8, 10, 6, 9, 12, 13, 14] ∧
      generate_simple_so_sections s2 = .ok s3 ∧ s3.bytes = s2.bytes ++ sections ∧
      push_section_headers s3 = .ok s4 ∧ s4.bytes = s3.bytes ++ shdrs ∧
      generate_simple_so st = .ok s4 ∧
      hdr.length = 0x120 ∧ le_value ((hdr.drop 0x28).take 8) = 0x20e0 ∧
      sections.length = 0x1fa8 ∧ shdrs.length = 0x280 ∧
      le_value ((shdrs.drop 0x50).take 8) = 0x120 ∧
      le_value ((shdrs.drop 0x58).take 8) = 0x120 ∧
      le_value ((shdrs.drop 0x60).take 8) = 0x14 := by
  obtain ⟨hdr, ehdr, lhdr, hshoff⟩ := emits_generate_simple_so_headers
  obtain ⟨sections, esec, lsec⟩ := emits_generate_simple_so_sections
  obtain ⟨shdrs, eshdrs, lshdrs, haddr, hoff, hsize⟩ := emits_push_section_headers
  have h1 := ehdr (reset st) (by simp only [reset, List.length_nil, lhdr, MAX_BYTES]; omega)
  have hb1 : ({ reset st with bytes := (reset st).bytes ++ hdr } : State).bytes = hdr := by
    simp [reset]
  obtain ⟨s2, h2, hb2⟩ := push_hash_simple_symbols_ok
    { reset st with bytes := (reset st).bytes ++ hdr } (by simp [reset])
    (by rw [hb1, lhdr]; simp only [MAX_BYTES]; omega)
  rw [hb1] at hb2
  have hl2 : s2.bytes.length = 0x178 := by
    rw [hb2, List.length_append, lhdr, le_words_length]; rfl
  have h3 := esec s2 (by rw [hl2, lsec]; simp only [MAX_BYTES]; omega)
  have h4 := eshdrs { s2 with bytes := s2.bytes ++ sections }
    (by simp only [List.length_append, hl2, lsec, lshdrs, MAX_BYTES]; omega)
  refine ⟨hdr, sections, shdrs, _, s2, _, _, h1, hb1, h2, hb2, h3, rfl, h4, rfl, ?_,
    lhdr, hshoff, lsec, lshdrs, haddr, hoff, hsize⟩
  unfold generate_simple_so
  rw [kleisli_ok _ _ _ _ h1, kleisli_ok _ _ _ _ h2, kleisli_ok _ _ _ _ h3]
  exact h4

/-- C13, as the code runs: in the image built by `generate_simple_so` the bytes appended by
`push_section_headers` (`0x280` of them) begin at byte offset `0x2120`, while the `e_shoff`
field that `push_elf_header` wrote (bytes `0x28 .. 0x2f` of the image) holds `0x20e0`. -/
theorem generate_simple_so_section_headers_offset (st : State) :
    ∃ (s3 s4 : State) (shdrs : List Nat),
      (generate_simple_so_headers >=> push_hash simple_symbols >=>
        generate_simple_so_sections) (reset st) = .ok s3 ∧
      push_section_headers s3 = .ok s4 ∧
      generate_simple_so st = .ok s4 ∧
      s4.bytes = s3.bytes ++ shdrs ∧ shdrs.length = 0x280 ∧
      s3.bytes.length = 0x2120 ∧
      le_value ((s4.bytes.drop 0x28).take 8) = 0x20e0 ∧
      s3.bytes.length ≠ 0x20e0 := by
  obtain ⟨hdr, sections, shdrs, s1, s2, s3, s4, h1, hb1, h2, hb2, h3, hb3, h4, hb4, hrun,
    lhdr, hshoff, lsec, lshdrs, -, -, -⟩ := generate_simple_so_trace st
  have hl3 : s3.bytes.length = 0x2120 := by
    rw [hb3, hb2, List.length_append, List.length_append, lhdr, lsec, le_words_length]; rfl
  refine ⟨s3, s4, shdrs, ?_, h4, hrun, hb4, lshdrs, hl3, ?_, by rw [hl3]; decide⟩
  · rw [kleisli_ok _ _ _ _ h1, kleisli_ok _ _ _ _ h2]
    exact h3
  · rw [hb4, hb3, hb2, List.append_assoc, List.append_assoc,
      List.drop_append_of_le_length (by omega),
      List.take_append_of_le_length (by simp; omega)]
    exact hshoff

/-- C15, as the code runs: in the image built by `generate_simple_so` the bytes appended by
`push_hash` begin at offset `0x120` and are `0x58` bytes (22 words), so they end at `0x178`
and `push_dynsym` writes from `0x178` on; the `.hash` section header of the same image
declares address `0x120`, offset `0x120` and size `0x14`. -/
theorem generate_simple_so_hash_extent (st : State) :
    ∃ (s1 s2 s4 : State) (table : List Nat),
      generate_simple_so_headers (reset st) = .ok s1 ∧
      push_hash simple_symbols s1 = .ok s2 ∧
      generate_simple_so st = .ok s4 ∧
      s1.bytes.length = 0x120 ∧
      s2.bytes = s1.bytes ++ table ∧ table.length = 0x58 ∧ s2.bytes.length = 0x178 ∧
      le_value ((s4.bytes.drop (0x2120 + 0x50)).take 8) = 0x120 ∧
      le_value ((s4.bytes.drop (0x2120 + 0x58)).take 8) = 0x120 ∧
      le_value ((s4.bytes.drop (0x2120 + 0x60)).take 8) = 0x14 ∧
      table.length ≠ 0x14 ∧ s2.bytes.length ≠ 0x134 ∧ s2.bytes.length ≠ 0x138 := by
  obtain ⟨hdr, sections, shdrs, s1, s2, s3, s4, h1, hb1, h2, hb2, h3, hb3, h4, hb4, hrun,
    lhdr, hshoff, lsec, lshdrs, haddr, hoff, hsize⟩ := generate_simple_so_trace st
  have hl2 : s2.bytes.length = 0x178 := by
    rw [hb2, List.length_append, lhdr, le_words_length]; rfl
  have hl3 : s3.bytes.length = 0x2120 := by
    rw [hb3, List.length_append, hl2, lsec]
  have hdrop : ∀ k, s4.bytes.drop (0x2120 + k) = shdrs.drop k := by
    intro k
    rw [hb4, ← hl3, List.drop_append]
  refine ⟨s1, s2, s4, _, h1, h2, hrun, by rw [hb1, lhdr], by rw [hb1]; exact hb2, ?_, hl2,
    by rw [hdrop]; exact haddr, by rw [hdrop]; exact hoff, by rw [hdrop]; exact hsize,
    ?_, by rw [hl2]; decide, by rw [hl2]; decide⟩
  · rw [le_words_length]; rfl
  · rw [le_words_length]; decide

end SimpleSo
